import Mathlib

/-!
# Verification of `bep/htmlfmt` (HTML formatter)

Shallow embedding of the repository's two-stage pipeline:

* `parse.go` — token-tree builder (`parser.parse`, `parser.trackOpen`,
  `token.needsNewlineAppended`, `token.size`, the tag classifier tables);
* `format.go` — layout engine (`Formatter.Format`, `prepareText`,
  `formatTextBlock`, `getOrCompileRegexp`, the `writer` methods).

Raw bytes are modelled as `List Nat` (byte values).  The external
tokenizer `golang.org/x/net/html` is out of scope (spec §1/§6): the
embedding takes the tokenizer's event stream as input, exactly the
interface `parser.Next` consumes.  Machine integers hold small token
counts and depths only, far from overflow; Go `int` depth, which may go
negative, is `Int`.
-/

namespace Htmlfmt

/-- Byte strings, as lists of byte values. -/
abbrev Bytes := List Nat

/-- Bytes of an ASCII string literal (used to build concrete inputs). -/
def strBytes (s : String) : Bytes := s.toList.map Char.toNat

/-- Go `regexp` character class `\s` = `[\t\n\f\r ]` (no vertical tab). -/
def regexSpaceB (c : Nat) : Bool :=
  c == 9 || c == 10 || c == 12 || c == 13 || c == 32

/-- Go `unicode.IsSpace` restricted to single bytes (ASCII):
`'\t' '\n' '\v' '\f' '\r' ' '`.  Used by `bytes.IndexFunc` in
`formatTextBlock`. -/
def unicodeIsSpace (c : Nat) : Bool :=
  c == 9 || c == 10 || c == 11 || c == 12 || c == 13 || c == 32

/-- `nonSpaceRe = regexp.MustCompile("\\S")` — does the input contain a
non-space byte? -/
def nonSpaceMatch (b : Bytes) : Bool := b.any (fun c => !regexSpaceB c)

/-- Does `b` start with an optional CR followed by LF (the `\r?\n` tail of
`leadingNewlineRe`)? -/
def crlfAt : Bytes → Bool
  | 13 :: 10 :: _ => true
  | 10 :: _ => true
  | _ => false

/-- `leadingNewlineRe = ^\s*\r?\n`: some prefix of space-class bytes is
followed by an optional CR and a LF. -/
def leadingNewlineMatch (b : Bytes) : Bool :=
  (List.range (b.length + 1)).any fun k =>
    (b.take k).all regexSpaceB && crlfAt (b.drop k)

/-- `trailingNewlineRe = \n\s*$`: some suffix starts with LF and continues
with space-class bytes to the end. -/
def trailingNewlineMatch (b : Bytes) : Bool :=
  (List.range (b.length + 1)).any fun k =>
    match b.drop k with
    | 10 :: rest => rest.all regexSpaceB
    | _ => false

/-- `leadingSpaceRe = ^\s+\S`: one or more space-class bytes at the start,
immediately followed by a non-space byte. -/
def leadingSpaceMatch (b : Bytes) : Bool :=
  (List.range (b.length + 1)).any fun k =>
    k ≥ 1 && (b.take k).all regexSpaceB &&
      (match b.drop k with
       | c :: _ => !regexSpaceB c
       | [] => false)

/-- `trailingSpaceRe = \S\s+$`: a non-space byte followed by one or more
space-class bytes running to the end. -/
def trailingSpaceMatch (b : Bytes) : Bool :=
  (List.range b.length).any fun k =>
    match b.drop k with
    | c :: rest => !regexSpaceB c && rest ≠ [] && rest.all regexSpaceB
    | [] => false

/-- `bytes.Replace(b, [tab], tabStr, -1)` for the single byte `\t`. -/
def replaceTabs (tabStr : Bytes) (b : Bytes) : Bytes :=
  b.flatMap fun c => if c == 9 then tabStr else [c]

/-- Is `c` in the cutset `" \r\n"` of `bytes.Trim` in `prepareText`? -/
def trimCut (c : Nat) : Bool := c == 32 || c == 13 || c == 10

/-- `bytes.Trim(b, " \r\n")`. -/
def trimSpaceCrLf (b : Bytes) : Bytes :=
  ((b.dropWhile trimCut).reverse.dropWhile trimCut).reverse

/-- `bytes.Repeat(b, n)`. -/
def repeatBytes (b : Bytes) (n : Nat) : Bytes := (List.replicate n b).flatten

/-- An HTML attribute (format.go `Attribute`). -/
structure Attribute where
  key : String
  value : String
  deriving DecidableEq, Repr, Inhabited

/-- `Attribute.IsZero`. -/
def Attribute.IsZero (a : Attribute) : Bool := a.key == ""

/-- `Attributes.ByKey`: first attribute with the key, or the zero value. -/
def byKey (attrs : List Attribute) (key : String) : Attribute :=
  match attrs.find? (fun a => a.key == key) with
  | some a => a
  | none => { key := "", value := "" }

/-- An HTML tag (format.go `Tag`): name plus ordered attribute list. -/
structure Tag where
  name : String
  attributes : List Attribute
  deriving DecidableEq, Repr, Inhabited

/-- Token kinds of `golang.org/x/net/html`, with their Go ordinals
(`ErrorToken = 0 … DoctypeToken = 6`); the ordinal order is what the
pairing comparison `t.typ <= tt.typ` in `trackOpen` uses. -/
inductive TokTyp where
  | error | text | startTag | endTag | selfClosingTag | comment | doctype
  deriving DecidableEq, Repr, Inhabited

/-- The numeric value of the Go `html.TokenType`. -/
def TokTyp.ord : TokTyp → Nat
  | .error => 0
  | .text => 1
  | .startTag => 2
  | .endTag => 3
  | .selfClosingTag => 4
  | .comment => 5
  | .doctype => 6

/-- `isInline` (parse.go). -/
def isInline (tag : String) : Bool :=
  match tag with
  | "a" | "b" | "i" | "em" | "strong" | "code" | "span" | "ins"
  | "big" | "small" | "tt" | "abbr" | "acronym" | "cite" | "dfn"
  | "kbd" | "samp" | "var" | "bdo" | "map" | "q" | "sub" | "sup" => true
  | _ => false

/-- `isPreformatted` (parse.go). -/
def isPreformatted (tag : String) : Bool :=
  match tag with
  | "pre" | "textarea" | "code" => true
  | _ => false

/-- `isVoid` (parse.go). -/
def isVoid (tag : String) : Bool :=
  match tag with
  | "input" | "link" | "meta" | "hr" | "img" | "br" | "area" | "base"
  | "col" | "param" | "command" | "embed" | "keygen" | "source"
  | "track" | "wbr" => true
  | _ => false

/-- `shouldAlwaysHaveNewlineAppended` (parse.go). -/
def shouldAlwaysHaveNewlineAppended (tag : String) : Bool :=
  match tag with
  | "html" | "body" => true
  | _ => false

/-- The `text` struct of parse.go (text info computed by `prepareText`);
field names follow the source, including the `hadTralingSpace` typo. -/
structure TextInfo where
  b : Bytes
  hasNewline : Bool
  isWhitespaceOnly : Bool
  hadLeadingNewline : Bool
  hadTrailingNewline : Bool
  hadLeadingSpace : Bool
  hadTralingSpace : Bool
  deriving DecidableEq, Repr

/-- The zero value of the `text` struct (as carried by non-text tokens). -/
def TextInfo.zero : TextInfo :=
  ⟨[], false, false, false, false, false, false⟩

instance : Inhabited TextInfo := ⟨TextInfo.zero⟩

/-- `prepareText` (format.go lines 757–770).  Tabs are replaced by the
indent unit, the body is trimmed of `" \r\n"`, and the boundary flags are
matched against the untrimmed input.  Note: the struct literal in the
source does not assign `isWhitespaceOnly`, so it keeps the zero value
`false`. -/
def prepareText (inTxt tabStr : Bytes) : TextInfo :=
  let txt := replaceTabs tabStr inTxt
  let txt := trimSpaceCrLf txt
  let hasNewline := txt.contains 10
  { b := txt
    hasNewline := hasNewline
    isWhitespaceOnly := false
    hadLeadingNewline := leadingNewlineMatch inTxt
    hadTrailingNewline := trailingNewlineMatch inTxt
    hadLeadingSpace := leadingSpaceMatch inTxt
    hadTralingSpace := trailingSpaceMatch inTxt }

/-- The `token` struct of parse.go.  `startElement` is the weak
back-reference to the matched opening token, modelled as an index into
the flat token list; `children` likewise holds indices.  The
formatter-assigned `indented` flag is tracked by the layout state (it is
the only field mutated during layout). -/
structure Tok where
  i : Nat
  typ : TokTyp
  prevType : TokTyp
  raw : Bytes
  tag : Tag
  startElement : Option Nat
  inPre : Bool
  depth : Int
  children : List Nat
  closed : Bool
  text : TextInfo
  deriving DecidableEq, Repr

instance : Inhabited Tok :=
  ⟨{ i := 0, typ := .error, prevType := .error, raw := [], tag := ⟨"", []⟩,
     startElement := none, inPre := false, depth := 0, children := [],
     closed := false, text := TextInfo.zero }⟩

/-- One event of the external tokenizer, as consumed by `parser.Next`:
kind, raw source bytes, and (for non-text kinds) tag name with ordered
attributes.  `ErrorToken`/EOF is the end of the list. -/
structure TokEvent where
  typ : TokTyp
  raw : Bytes
  tagName : String
  attrs : List Attribute
  deriving DecidableEq, Repr, Inhabited

/-- Parser state (`parser` struct): running token counter, current depth,
the tag most recently produced by `Next` (text tokens inherit it), the
previous token type, and the token list built so far. -/
structure ParseState where
  counter : Nat
  depth : Int
  tag : Tag
  currType : TokTyp
  toks : List Tok
  deriving Repr

/-- Replace the element at index `j`, if present. -/
def modifyAt (toks : List Tok) (j : Nat) (f : Tok → Tok) : List Tok :=
  match toks.get? j with
  | some t => toks.set j (f t)
  | none => toks

/-- The descending scan of `trackOpen` that attaches an end tag to its
opening token: from index `n - 1` down to `0`, skip candidates that are
closed, have a different name, have a kind not strictly before the
current one, or are text; return the first whose depth also matches.
(The source's `tt != t` guard is vacuous: `t` is not yet in the list.) -/
def pairScanAux (toks : List Tok) (t : Tok) : Nat → Option Nat
  | 0 => none
  | n + 1 =>
    match toks.get? n with
    | none => pairScanAux toks t n
    | some tt =>
      if tt.closed || t.tag.name != tt.tag.name || t.typ.ord ≤ tt.typ.ord
          || tt.typ == .text then
        pairScanAux toks t n
      else if tt.depth == t.depth && t.tag.name == tt.tag.name then
        some n
      else
        pairScanAux toks t n

/-- Entry point of the pairing scan (whole list, most recent first). -/
def pairScan (toks : List Tok) (t : Tok) : Option Nat :=
  pairScanAux toks t toks.length

/-- The descending scan of `trackOpen` that finds the parent: the most
recent non-closed token exactly one level shallower. -/
def childScanAux (toks : List Tok) (t : Tok) : Nat → Option Nat
  | 0 => none
  | n + 1 =>
    match toks.get? n with
    | none => childScanAux toks t n
    | some tt =>
      if tt.closed then childScanAux toks t n
      else if t.depth - tt.depth == 1 then some n
      else childScanAux toks t n

/-- Entry point of the parent scan. -/
def childScan (toks : List Tok) (t : Tok) : Option Nat :=
  childScanAux toks t toks.length

/-- The token `trackOpen` builds before pairing: the depth snapshot
happens after the adjustment for an end tag and before it for every
other kind (parse.go lines 94–116).  `prepareText` runs later, in
`Format` (format.go lines 518–522). -/
def mkParseTok (st : ParseState) (ev : TokEvent) (depthAdjustment : Int)
    (inPre : Bool) : Tok :=
  { i := st.counter
    inPre := inPre
    typ := ev.typ
    prevType := st.currType
    raw := ev.raw
    tag := st.tag
    startElement := none
    depth :=
      if ev.typ == .endTag then st.depth + depthAdjustment else st.depth
    children := []
    closed := ev.typ == .endTag
    text := TextInfo.zero }

/-- The pairing step of `trackOpen` (parse.go lines 119–134): an end tag
outside a verbatim region records the back-reference found by the
descending scan and marks the opener closed. -/
def applyPairing (toks : List Tok) (t : Tok) : Tok × List Tok :=
  if t.closed && !t.inPre then
    match pairScan toks t with
    | some j =>
      ({ t with startElement := some j },
       modifyAt toks j (fun tt => { tt with closed := t.closed }))
    | none => (t, toks)
  else (t, toks)

/-- The child-linking step of `trackOpen` (parse.go lines 136–147):
append the new token's index to the children of the nearest open token
one level shallower. -/
def applyChildLink (toks : List Tok) (t : Tok) (counter : Nat) :
    List Tok :=
  match childScan toks t with
  | some j =>
    modifyAt toks j (fun tt => { tt with children := tt.children ++ [counter] })
  | none => toks

/-- `parser.trackOpen` (parse.go lines 90–150): build the token, pair an
end tag with its opening token, link the new token into its parent's
children list, and append it. -/
def trackOpen (st : ParseState) (ev : TokEvent) (depthAdjustment : Int)
    (inPre : Bool) : ParseState :=
  let t := mkParseTok st ev depthAdjustment inPre
  let (t, toks) := applyPairing st.toks t
  let toks := applyChildLink toks t st.counter
  { st with depth := st.depth + depthAdjustment,
            counter := st.counter + 1, toks := toks ++ [t] }

/-- One iteration of `parser.parse` (parse.go lines 49–88) combined with
`parser.Next` (format.go lines 709–743): update the current tag (text
events inherit the previous one), compute the depth adjustment and the
`inPre` flag, and run `trackOpen`.  Note that the source declares
`var inPre bool` inside the loop, so `inPre` restarts at `false` on every
iteration: only a preformatted start tag itself ever carries `inPre =
true`, and `isEndPre` can never hold. -/
def parseStep (st : ParseState) (ev : TokEvent) : ParseState :=
  -- An ErrorToken never reaches `trackOpen`: EOF breaks the loop and any
  -- other error aborts the parse.  Event lists model the successfully
  -- tokenized stream, so `.error` events are ignored.
  if ev.typ == .error then st else
  let st :=
    if ev.typ != .text then
      { st with tag := { name := ev.tagName, attributes := ev.attrs } }
    else st
  let depthAdjustment : Int :=
    match ev.typ with
    | .startTag => if isVoid ev.tagName then 0 else 1
    | .endTag => -1
    | _ => 0
  let inPre : Bool :=
    match ev.typ with
    | .startTag => isPreformatted ev.tagName
    | _ => false
  let st' := trackOpen st ev depthAdjustment inPre
  { st' with currType := ev.typ }

/-- Initial parser state (`newParser`). -/
def initParseState : ParseState :=
  { counter := 0, depth := 0, tag := ⟨"", []⟩, currType := .error, toks := [] }

/-- `parser.parse`: fold the event stream (EOF ends it). -/
def parse (events : List TokEvent) : List Tok :=
  (events.foldl parseStep initParseState).toks

/-- `sizeNewlineThreshold` (format.go line 436). -/
def sizeNewlineThreshold : Nat := 30

/-- `token.size` (parse.go lines 239–254), fuelled: the raw length of the
token (zero when its text info says whitespace-only) plus the sizes of
all children.  Children sit at strictly larger indices, so fuel
`toks.length` always suffices. -/
def sizeF (toks : List Tok) : Nat → Nat → Nat
  | 0, _ => 0
  | fuel + 1, j =>
    match toks.get? j with
    | none => 0
    | some t =>
      (if t.text.isWhitespaceOnly then 0 else t.raw.length)
        + (t.children.map (sizeF toks fuel)).sum

/-- `token.size` of a token value (its children are indices into `toks`). -/
def tokSize (toks : List Tok) (t : Tok) : Nat :=
  (if t.text.isWhitespaceOnly then 0 else t.raw.length)
    + (t.children.map (sizeF toks toks.length)).sum

/-- The `blockCount` loop of `token.needsNewlineAppended` (parse.go lines
221–231): stop with `true` as soon as a child is a non-inline start tag
or has text with an embedded newline. -/
def blockCountLoop (toks : List Tok) : List Nat → Nat → Bool
  | [], _ => false
  | j :: rest, blockCount =>
    let c := toks.getD j default
    let blockCount :=
      if c.typ == .startTag && !isInline c.tag.name then blockCount + 1
      else if c.text.hasNewline then blockCount + 1
      else blockCount
    if blockCount > 0 then true else blockCountLoop toks rest blockCount

/-- `token.needsNewlineAppended` (parse.go lines 208–234). -/
def needsNewlineAppended (toks : List Tok) (t : Tok) : Bool :=
  if t.inPre then false
  else if t.children.length == 0 then false
  else if shouldAlwaysHaveNewlineAppended t.tag.name then true
  else if blockCountLoop toks t.children 0 then true
  else tokSize toks t > sizeNewlineThreshold

/-- `token.isInline`. -/
def Tok.isInline (t : Tok) : Bool := Htmlfmt.isInline t.tag.name

/-- `token.isVoid`. -/
def Tok.isVoid (t : Tok) : Bool := Htmlfmt.isVoid t.tag.name

/-- `token.isBlock`. -/
def Tok.isBlock (t : Tok) : Bool := !(t.isInline || t.typ == .text)

/-! ## The layout engine (format.go lines 510–689) -/

/-- The pattern strings handed to `getOrCompileRegexp`; the source builds
`"\n\\s{" + strconv.Itoa(idx) + "}"`, so patterns are in bijection with
the repeat count. -/
inductive RePattern where
  | newlineSpaces : Nat → RePattern
  deriving DecidableEq, Repr

/-- `regexp.MustCompile` on such a pattern: the compiled matcher is fully
described by the repeat count. -/
def compileRe : RePattern → Nat
  | .newlineSpaces n => n

/-- The process-wide `regexpCache`: pattern keys mapped to compiled
matchers. -/
abbrev ReCache := List (RePattern × Nat)

/-- `getOrCompileRegexp` (format.go lines 820–834): return the cached
compiled matcher if the key is present, otherwise compile and insert. -/
def getOrCompileRegexp (cache : ReCache) (p : RePattern) : Nat × ReCache :=
  match cache.find? (fun e => e.1 == p) with
  | some e => (e.2, cache)
  | none => (compileRe p, cache ++ [(p, compileRe p)])

/-- Does the front of the list hold (at least) `n` space-class bytes? -/
def matchNSpaces : Nat → Bytes → Bool
  | 0, _ => true
  | _ + 1, [] => false
  | n + 1, c :: rest => regexSpaceB c && matchNSpaces n rest

/-- `re.ReplaceAllLiteral` for the pattern `\n\s{n}` (fuelled so the
kernel can evaluate it; the fuel is the byte count, which always
suffices since a match consumes at least one byte): leftmost,
non-overlapping matches of a LF followed by exactly `n` space-class
bytes are replaced by `repl`. -/
def replaceNlSpacesF (n : Nat) (repl : Bytes) : Nat → Bytes → Bytes
  | 0, b => b
  | _ + 1, [] => []
  | fuel + 1, c :: rest =>
    if c == 10 && matchNSpaces n rest then
      repl ++ replaceNlSpacesF n repl fuel (rest.drop n)
    else
      c :: replaceNlSpacesF n repl fuel rest

/-- `re.ReplaceAllLiteral` for `\n\s{n}`. -/
def replaceNlSpaces (n : Nat) (repl : Bytes) (b : Bytes) : Bytes :=
  replaceNlSpacesF n repl b.length b

/-- `bytes.Split(txt, "\n ")`. -/
def splitNlSpace (cur : Bytes) : Bytes → List Bytes
  | [] => [cur.reverse]
  | 10 :: 32 :: rest => cur.reverse :: splitNlSpace [] rest
  | c :: rest => splitNlSpace (c :: cur) rest

/-- `bytes.IndexFunc(part, isNotSpace)`: index of the first byte that is
not `unicode.IsSpace`, or `-1`. -/
def indexNotSpace (b : Bytes) : Int :=
  match b.findIdx? (fun c => !unicodeIsSpace c) with
  | some k => (k : Int)
  | none => -1

/-- The index-computing loop of `formatTextBlock` over `parts[1:]`
(format.go lines 847–854), including the `idx = i + 1` offset. -/
def computeIdx : List Bytes → Int → Int
  | [], idx => idx
  | part :: rest, idx =>
    let i2 := indexNotSpace part
    computeIdx rest (if idx == -1 || (i2 != -1 && i2 < idx) then i2 + 1 else idx)

/-- `formatTextBlock` (format.go lines 840–862): find the common leading
space width after each "\n " break, then rewrite every `\n\s{idx}` run to
a newline plus the current indent.  Threads the regexp cache. -/
def formatTextBlock (tabStr txt : Bytes) (depth : Nat) (cache : ReCache) :
    Bytes × ReCache :=
  let parts := splitNlSpace [] txt
  let idx := computeIdx (parts.drop 1) (-1)
  let idx := if idx < 1 then 0 else idx
  let (n, cache) := getOrCompileRegexp cache (.newlineSpaces idx.toNat)
  (replaceNlSpaces n (10 :: repeatBytes tabStr depth) txt, cache)

/-- Formatter configuration (the `Formatter` struct): indent unit,
newline bytes, per-tag text-formatter lookup, optional placeholder
attribute name. -/
structure Config where
  tabStr : Bytes
  newline : Bytes
  textFormatters : Tag → Option (Bytes → Nat → Bytes)
  newlineAttributePlaceholder : String

/-- `New()` with no options. -/
def defaultConfig : Config :=
  { tabStr := [32, 32], newline := [10], textFormatters := fun _ => none,
    newlineAttributePlaceholder := "" }

/-- The `writer` struct: output accumulated so far, the newline-run
counter used for deduplication, and the render depth. -/
structure Writer where
  out : Bytes
  newlineDepth : Nat
  depth : Nat
  deriving Repr

/-- `writer.write`: reset the newline counter and emit. -/
def wWrite (w : Writer) (p : Bytes) : Writer :=
  { w with newlineDepth := 0, out := w.out ++ p }

/-- `writer.newline`: bump the counter; emit only the first newline of a
run, reporting whether anything was written. -/
def wNewline (cfg : Config) (w : Writer) : Bool × Writer :=
  let w := { w with newlineDepth := w.newlineDepth + 1 }
  if w.newlineDepth > 1 then (false, w)
  else (true, { w with out := w.out ++ cfg.newline })

/-- `writer.newlineForced`: emit unconditionally (counter untouched). -/
def wNewlineForced (cfg : Config) (w : Writer) : Writer :=
  { w with out := w.out ++ cfg.newline }

/-- `writer.tab`: emit the indent for the current depth (counter
untouched). -/
def wTab (cfg : Config) (w : Writer) : Writer :=
  { w with out := w.out ++ repeatBytes cfg.tabStr w.depth }

/-- Layout state: the writer, the `inPre` flag of the `Format` loop, the
persistent `formatText` variable, and the set of token indices whose
`indented` flag was set.  The regexp cache is process-global in the
source (`regexpCache`), so it is threaded separately. -/
structure FmtState where
  w : Writer
  inPre : Bool
  fmtText : Option (Bytes → Nat → Bytes)
  indented : List Nat

/-- The `if w.newline() { w.tab() }` idiom. -/
def nlTab (cfg : Config) (st : FmtState) : FmtState :=
  let (n, w) := wNewline cfg st.w
  { st with w := if n then wTab cfg w else w }

/-- `token.isStartIndented`, reading the layout-time `indented` marks. -/
def isStartIndented (st : FmtState) (t : Tok) : Bool :=
  match t.startElement with
  | some j => st.indented.contains j
  | none => false

/-- `writer.defaultTextTokenHandler` (format.go lines 772–798). -/
def defaultTextTokenHandler (cfg : Config) (st : FmtState)
    (cache : ReCache) (prev : Option Tok) (curr : Tok)
    (next : Option Tok) : FmtState × ReCache :=
  let txt := curr.text
  let text := txt.b
  let text :=
    if txt.hadTralingSpace &&
        (match next with
         | some nx => nx.typ == .startTag && nx.isInline
         | none => false) then
      text ++ [32]
    else text
  if text == [] then (st, cache)
  else
    let prevIsInlineEndTag :=
      match prev with
      | some p => p.typ == .endTag && p.isInline
      | none => false
    if txt.hasNewline then
      let text :=
        if prevIsInlineEndTag && txt.hadLeadingSpace then 32 :: text else text
      let (fb, cache) := formatTextBlock cfg.tabStr text st.w.depth cache
      ({ st with w := wWrite st.w fb }, cache)
    else
      let text :=
        if prevIsInlineEndTag && txt.hadLeadingSpace then 32 :: text else text
      ({ st with w := wWrite st.w text }, cache)

/-- `writer.handleTextToken` (format.go lines 800–806). -/
def handleTextToken (cfg : Config) (st : FmtState) (cache : ReCache)
    (prev : Option Tok) (curr : Tok) (next : Option Tok) :
    FmtState × ReCache :=
  if curr.inPre then ({ st with w := wWrite st.w curr.raw }, cache)
  else defaultTextTokenHandler cfg st cache prev curr next

/-- `tokenIterator.PeekStart`: the next start-tag token strictly after
`pos`, at any distance. -/
def peekStart (toks : List Tok) (pos : Nat) : Option Tok :=
  (toks.drop (pos + 1)).find? (fun t => t.typ == .startTag)

/-- Outcome of one iteration of the `Format` loop: continue with a new
state, or abort with the placeholder-misuse error (the state carries the
bytes already flushed). -/
inductive StepOut where
  | ok (st : FmtState)
  | fail (st : FmtState)

/-- The `case html.StartTagToken` branch of the `Format` loop (lines
586–621), after the verbatim sub-case. -/
def stepStartTag (cfg : Config) (toks : List Tok) (pos : Nat)
    (st : FmtState) (curr : Tok) (prev next : Option Tok) : FmtState :=
  let st := { st with fmtText := cfg.textFormatters curr.tag }
  let needsNA :=
    if st.fmtText.isNone then needsNewlineAppended toks curr else false
  let st :=
    if st.fmtText.isNone then
      if needsNA then
        { st with indented := pos :: st.indented,
                  w := { st.w with depth := st.w.depth + 1 } }
      else if prev.isSome && next.isSome && curr.isVoid then nlTab cfg st
      else st
    else st
  let st := { st with w := wWrite st.w curr.raw }
  if st.fmtText.isNone &&
      (needsNA || (prev.isSome && next.isSome && curr.isVoid)) then
    nlTab cfg st
  else st

/-- The `case html.SelfClosingTagToken, html.CommentToken,
html.DoctypeToken` branch (lines 622–626). -/
def stepSelfClosing (cfg : Config) (st : FmtState) (curr : Tok)
    (prev next : Option Tok) : FmtState :=
  let st := { st with w := wWrite st.w curr.raw }
  if prev.isNone && next.isSome then
    { st with w := (wNewline cfg st.w).2 }
  else st

/-- The `case html.EndTagToken` branch (lines 627–656), after the
verbatim sub-case. -/
def stepEndTag (cfg : Config) (toks : List Tok) (pos : Nat)
    (st : FmtState) (curr : Tok) (next : Option Tok) : FmtState :=
  let st :=
    if st.fmtText.isNone && isStartIndented st curr then
      let (n, w) := wNewline cfg st.w
      let w := { w with depth := w.depth - 1 }
      { st with w := if n then wTab cfg w else w }
    else st
  let st := { st with w := wWrite st.w curr.raw }
  match next with
  | some nx =>
    if !nx.isInline then
      match peekStart toks pos with
      | some nextStart =>
        if curr.depth == nextStart.depth then nlTab cfg st else st
      | none => st
    else st
  | none => st

/-- The `case html.TextToken` branch, part before the handler call
(lines 657–666): newline-and-indent after a closed block and after a
leading newline at the start of the document. -/
def stepTextPre (cfg : Config) (st : FmtState) (curr : Tok)
    (prev : Option Tok) : FmtState :=
  let st :=
    match prev with
    | some p =>
      if (p.typ == .endTag || p.isVoid) && p.isBlock then nlTab cfg st
      else st
    | none => st
  if prev.isNone && curr.text.hadLeadingNewline then nlTab cfg st else st

/-- The `case html.TextToken` handler dispatch (lines 667–672): a
configured text formatter writes directly, otherwise the default
handler runs. -/
def stepTextMid (cfg : Config) (st : FmtState) (cache : ReCache)
    (prev : Option Tok) (curr : Tok) (next : Option Tok) :
    FmtState × ReCache :=
  match st.fmtText with
  | some f => ({ st with w := wWrite st.w (f curr.raw st.w.depth) }, cache)
  | none => handleTextToken cfg st cache prev curr next

/-- The `case html.TextToken` branch, part after the handler call
(lines 673–682): newline-and-indent before a following non-inline
sibling when the text ended in a newline. -/
def stepTextPost (cfg : Config) (st : FmtState) (curr : Tok)
    (next : Option Tok) : FmtState :=
  match next with
  | some nx =>
    if !nx.isInline && curr.text.hadTrailingNewline &&
        nx.depth == curr.depth then
      nlTab cfg st
    else st
  | none => st

/-- The `case html.TextToken` branch (lines 657–682). -/
def stepText (cfg : Config) (st : FmtState) (cache : ReCache)
    (curr : Tok) (prev next : Option Tok) : FmtState × ReCache :=
  let st := stepTextPre cfg st curr prev
  let (st, cache) := stepTextMid cfg st cache prev curr next
  (stepTextPost cfg st curr next, cache)

/-- The whitespace-only-text prologue (lines 553–564): preserve one
boundary newline at each end of the document. -/
def stepWsText (cfg : Config) (st : FmtState) (curr : Tok)
    (prev next : Option Tok) : FmtState :=
  let st :=
    if prev.isNone && leadingNewlineMatch curr.raw then
      { st with w := (wNewline cfg st.w).2 }
    else st
  if next.isNone && trailingNewlineMatch curr.raw then
    { st with w := (wNewline cfg st.w).2 }
  else st

/-- One iteration of the `Format` loop body (format.go lines 539–686),
for the token at `pos`.  The global regexp cache is threaded through;
only the text branch can touch it. -/
def formatStep (cfg : Config) (toks : List Tok) (pos : Nat)
    (st : FmtState) (cache : ReCache) : StepOut × ReCache :=
  let curr := toks.getD pos default
  let prev : Option Tok := if pos == 0 then none else toks.get? (pos - 1)
  let next : Option Tok := toks.get? (pos + 1)
  -- Verbatim passthrough (lines 545–548).
  if st.inPre && !curr.inPre then
    (.ok { st with w := wWrite st.w curr.raw }, cache)
  else
  -- Whitespace-only text (lines 553–569).
  let wsOnly := curr.typ == .text && !nonSpaceMatch curr.raw
  let st := if wsOnly then stepWsText cfg st curr prev next else st
  if wsOnly && (prev.isNone || !((prev.getD default).inPre)) then
    (.ok st, cache)
  else
  -- Newline-placeholder attribute (lines 571–583).
  let newlineAttribute :=
    curr.typ != .text && cfg.newlineAttributePlaceholder != "" &&
      !(byKey curr.tag.attributes cfg.newlineAttributePlaceholder).IsZero
  if newlineAttribute && !curr.isVoid then (.fail st, cache)
  else if newlineAttribute then
    (.ok { st with w := wNewlineForced cfg st.w }, cache)
  else
  match curr.typ with
  | .startTag =>
    if curr.inPre then
      (.ok { st with inPre := true, w := wWrite st.w curr.raw }, cache)
    else
      (.ok (stepStartTag cfg toks pos st curr prev next), cache)
  | .selfClosingTag | .comment | .doctype =>
    (.ok (stepSelfClosing cfg st curr prev next), cache)
  | .endTag =>
    if curr.inPre then
      (.ok { st with inPre := false, w := wWrite st.w curr.raw }, cache)
    else
      (.ok (stepEndTag cfg toks pos st curr next), cache)
  | .text =>
    let r := stepText cfg st cache curr prev next
    (.ok r.1, r.2)
  | .error => (.ok st, cache)

/-- The `Format` loop, fuelled (the fuel `toks.length - pos` always
suffices): run `formatStep` over the token list; an error aborts
immediately.  Returns the final state, the cache, and the error flag. -/
def formatLoopF (cfg : Config) (toks : List Tok) :
    Nat → Nat → FmtState → ReCache → FmtState × ReCache × Bool
  | 0, _, st, cache => (st, cache, false)
  | fuel + 1, pos, st, cache =>
    if pos < toks.length then
      match formatStep cfg toks pos st cache with
      | (.ok st', cache') => formatLoopF cfg toks fuel (pos + 1) st' cache'
      | (.fail st', cache') => (st', cache', true)
    else (st, cache, false)

/-- The `Format` loop from position `pos`. -/
def formatLoop (cfg : Config) (toks : List Tok) (pos : Nat)
    (st : FmtState) (cache : ReCache) : FmtState × ReCache × Bool :=
  formatLoopF cfg toks (toks.length - pos) pos st cache

/-- The text-preparation pass of `Format` (format.go lines 518–522). -/
def prepareTokens (cfg : Config) (toks : List Tok) : List Tok :=
  toks.map fun tok =>
    if tok.typ == .text then { tok with text := prepareText tok.raw cfg.tabStr }
    else tok

/-- Result of `Formatter.Format`: the bytes flushed to the sink, whether
the placeholder-misuse error was returned, and the final state of the
shared regexp cache. -/
structure FmtResult where
  out : Bytes
  err : Bool
  cache : ReCache

/-- `Formatter.Format` (format.go lines 510–689), starting from a given
regexp-cache state: parse, prepare text tokens, then run the layout
loop. -/
def formatWithCache (cfg : Config) (events : List TokEvent)
    (cache : ReCache) : FmtResult :=
  let toks := prepareTokens cfg (parse events)
  let st0 : FmtState :=
    { w := { out := [], newlineDepth := 0, depth := 0 },
      inPre := false, fmtText := none, indented := [] }
  let r := formatLoop cfg toks 0 st0 cache
  { out := r.1.w.out, err := r.2.2, cache := r.2.1 }

/-- `Formatter.Format` from an empty regexp cache. -/
def format (cfg : Config) (events : List TokEvent) : FmtResult :=
  formatWithCache cfg events []

/-! ## Spec-side definitions (following the claims' wording) and
well-formedness predicates for tokenizer event streams -/

/-- Claim C5's description of the expansion decision: false inside a
verbatim region or with no children; unconditionally true for the
always-expand names `html`/`body`; true when some direct child is a
non-inline opening tag or a text child with an embedded newline in its
body; otherwise true iff the memoized subtree size exceeds the 30-byte
threshold. -/
def specNeedsExpansion (toks : List Tok) (t : Tok) : Bool :=
  if t.inPre then false
  else if t.children.isEmpty then false
  else if t.tag.name == "html" || t.tag.name == "body" then true
  else if t.children.any (fun j =>
      let c := toks.getD j default
      (c.typ == .startTag && !isInline c.tag.name)
        || (c.typ == .text && c.text.hasNewline)) then true
  else decide (tokSize toks t > sizeNewlineThreshold)

/-- Claim C6's description of pairing: the most recently seen, still-open
start-tag token with the same tag name at the same depth. -/
def lifoMatch (toks : List Tok) (t : Tok) : Option Nat :=
  (List.range toks.length).reverse.find? fun j =>
    match toks.get? j with
    | some tt =>
      !tt.closed && tt.typ == .startTag && tt.tag.name == t.tag.name
        && tt.depth == t.depth
    | none => false

/-- The depth adjustment `parser.parse` computes for an event (with the
per-iteration reset of `inPre`, a start tag adjusts by one unless void,
an end tag always by minus one). -/
def eventAdj (e : TokEvent) : Int :=
  match e.typ with
  | .startTag => if isVoid e.tagName then 0 else 1
  | .endTag => -1
  | _ => 0

/-- Running depth balance of an event stream. -/
def balance (evs : List TokEvent) : Int := (evs.map eventAdj).sum

/-- A cache state the program can actually reach: every entry stores the
compilation of its own key (`getOrCompileRegexp` inserts nothing else,
and `regexp.MustCompile` is deterministic). -/
def wfCache (c : ReCache) : Prop := ∀ e ∈ c, e.2 = compileRe e.1

/-- Tag-kind events (everything the tokenizer reports except text and
error). -/
def tagKind (t : TokTyp) : Bool :=
  t == .startTag || t == .endTag || t == .selfClosingTag
    || t == .comment || t == .doctype

/-- Well-formed tokenizer events: raw bytes are nonempty, and a tag-kind
event's raw source starts with `<` (60) and ends with `>` (62) — what
`golang.org/x/net/html` guarantees for the raw bytes of tag, comment and
doctype tokens. -/
def wfEvent (e : TokEvent) : Bool :=
  e.raw ≠ [] &&
    (if tagKind e.typ then
      e.raw.head? == some 60 && e.raw.getLast? == some 62
    else true) &&
    e.typ != .error

/-- A stream with no verbatim-region opener (no `pre`/`textarea`/`code`
start tag). -/
def noPreformatted (evs : List TokEvent) : Bool :=
  evs.all fun e => !(e.typ == .startTag && isPreformatted e.tagName)

/-- A formatter configuration in its library-default shape: newline is
`\n`, no placeholder attribute, no custom text formatters, and an indent
unit free of newlines (`WithTab` may change the unit itself). -/
structure PlainConfig (cfg : Config) : Prop where
  newline_eq : cfg.newline = [10]
  placeholder_empty : cfg.newlineAttributePlaceholder = ""
  formatters_none : ∀ tag, cfg.textFormatters tag = none
  tab_no_newline : cfg.tabStr.contains 10 = false

/-- Agreement on every token field the tree builder never mutates on
already-appended tokens (pairing only marks `closed`, child-linking only
appends to `children`). -/
def SameCore (t t' : Tok) : Prop :=
  t'.i = t.i ∧ t'.typ = t.typ ∧ t'.prevType = t.prevType ∧ t'.raw = t.raw
    ∧ t'.tag = t.tag ∧ t'.startElement = t.startElement
    ∧ t'.inPre = t.inPre ∧ t'.depth = t.depth ∧ t'.text = t.text

/-- `l₂` keeps, core-wise, every token of `l₁` at its index. -/
def PreservesTok (l₁ l₂ : List Tok) : Prop :=
  ∀ k t, l₁.get? k = some t → ∃ t', l₂.get? k = some t' ∧ SameCore t t'

/-! ## Concrete event streams used by the theorems -/

/-- A start-tag event with raw bytes `<name>`. -/
def evStart (name : String) : TokEvent :=
  { typ := .startTag, raw := strBytes ("<" ++ name ++ ">"), tagName := name,
    attrs := [] }

/-- A start-tag event carrying one attribute. -/
def evStartAttr (name : String) (raw : String) (key value : String) :
    TokEvent :=
  { typ := .startTag, raw := strBytes raw, tagName := name,
    attrs := [{ key := key, value := value }] }

/-- A self-closing-tag event carrying one attribute. -/
def evSelfAttr (name : String) (raw : String) (key value : String) :
    TokEvent :=
  { typ := .selfClosingTag, raw := strBytes raw, tagName := name,
    attrs := [{ key := key, value := value }] }

/-- An end-tag event with raw bytes `</name>`. -/
def evEnd (name : String) : TokEvent :=
  { typ := .endTag, raw := strBytes ("</" ++ name ++ ">"), tagName := name,
    attrs := [] }

/-- A text event (text events carry no tag data of their own). -/
def evText (s : String) : TokEvent :=
  { typ := .text, raw := strBytes s, tagName := "", attrs := [] }

/-- Events of `<div><div>Hello</div><div>World</div></div>` (the repo's
`Basic` test input). -/
def divEvents : List TokEvent :=
  [evStart "div", evStart "div", evText "Hello", evEnd "div",
   evStart "div", evText "World", evEnd "div", evEnd "div"]

/-- Events of `<pre>A</pre>` followed by the `Basic` test input. -/
def preThenDivEvents : List TokEvent :=
  [evStart "pre", evText "A", evEnd "pre"] ++ divEvents

/-- Events of `<div><pre><div>Text</div></pre></div>` (the repo's
`Preformatted` parse test input). -/
def preDepthEvents : List TokEvent :=
  [evStart "div", evStart "pre", evStart "div", evText "Text",
   evEnd "div", evEnd "pre", evEnd "div"]

/-- Events of `\n<div>Hello</div>\n` (the repo's boundary-newline test). -/
def newlineBoundaryEvents : List TokEvent :=
  [evText "\n", evStart "div", evText "Hello", evEnd "div", evText "\n"]

/-- `New(WithNewlineAttributePlaceholder("newline"))`. -/
def placeholderCfg : Config :=
  { defaultConfig with newlineAttributePlaceholder := "newline" }

/-- Events of `<div>Hello</div><div newline/><div>World</div>` (the
repo's failing placeholder test). -/
def placeholderBadEvents : List TokEvent :=
  [evStart "div", evText "Hello", evEnd "div",
   evSelfAttr "div" "<div newline/>" "newline" "",
   evStart "div", evText "World", evEnd "div"]

/-- Events of `<div>Hello</div><br newline/><div>World</div>` (the
repo's passing placeholder test). -/
def placeholderGoodEvents : List TokEvent :=
  [evStart "div", evText "Hello", evEnd "div",
   evSelfAttr "br" "<br newline/>" "newline" "",
   evStart "div", evText "World", evEnd "div"]

/-- The layout state `Format` starts from. -/
def fmtState0 : FmtState :=
  { w := { out := [], newlineDepth := 0, depth := 0 },
    inPre := false, fmtText := none, indented := [] }

/-! ## Theorems -/

/-! ### Lemmas about the tree builder's runs -/

theorem sameCore_refl (t : Tok) : SameCore t t := by
  exact ⟨rfl, rfl, rfl, rfl, rfl, rfl, rfl, rfl, rfl⟩

theorem sameCore_trans {a b c : Tok} (h₁ : SameCore a b)
    (h₂ : SameCore b c) : SameCore a c := by
  obtain ⟨e1, e2, e3, e4, e5, e6, e7, e8, e9⟩ := h₁
  obtain ⟨f1, f2, f3, f4, f5, f6, f7, f8, f9⟩ := h₂
  exact ⟨f1.trans e1, f2.trans e2, f3.trans e3, f4.trans e4, f5.trans e5,
    f6.trans e6, f7.trans e7, f8.trans e8, f9.trans e9⟩

theorem preservesTok_refl (l : List Tok) : PreservesTok l l :=
  fun _ t h => ⟨t, h, sameCore_refl t⟩

theorem preservesTok_trans {l₁ l₂ l₃ : List Tok}
    (h₁ : PreservesTok l₁ l₂) (h₂ : PreservesTok l₂ l₃) :
    PreservesTok l₁ l₃ := by
  intro k t h
  obtain ⟨t', h', hc'⟩ := h₁ k t h
  obtain ⟨t'', h'', hc''⟩ := h₂ k t' h'
  exact ⟨t'', h'', sameCore_trans hc' hc''⟩

theorem modifyAt_length (toks : List Tok) (j : Nat) (f : Tok → Tok) :
    (modifyAt toks j f).length = toks.length := by
  unfold modifyAt
  cases h : toks.get? j with
  | none => rfl
  | some t => simp

theorem modifyAt_get? (toks : List Tok) (j : Nat) (f : Tok → Tok)
    (k : Nat) :
    (modifyAt toks j f).get? k
      = if k = j then (toks.get? j).map f else toks.get? k := by
  unfold modifyAt
  cases h : toks.get? j with
  | none =>
    dsimp only
    by_cases hkj : k = j
    · subst hkj; rw [if_pos rfl, h]; rfl
    · rw [if_neg hkj]
  | some t =>
    dsimp only
    by_cases hkj : k = j
    · subst hkj
      have hlt : k < toks.length := by
        by_contra hh
        rw [List.get?_eq_none.mpr (Nat.le_of_not_lt hh)] at h
        exact Option.noConfusion h
      simp only [List.get?_eq_getElem?] at h ⊢
      rw [List.getElem?_set_self hlt]
      simp [h]
    · simp only [List.get?_eq_getElem?]
      rw [List.getElem?_set_ne (fun hh => hkj hh.symm)]
      simp [hkj]

theorem preservesTok_modifyAt (toks : List Tok) (j : Nat) (f : Tok → Tok)
    (hf : ∀ t, SameCore t (f t)) :
    PreservesTok toks (modifyAt toks j f) := by
  intro k t h
  rw [modifyAt_get? toks j f k]
  by_cases hkj : k = j
  · subst hkj
    refine ⟨f t, ?_, hf t⟩
    rw [if_pos rfl, h]
    rfl
  · rw [if_neg hkj]
    exact ⟨t, h, sameCore_refl t⟩

theorem preservesTok_append (l l' : List Tok) :
    PreservesTok l (l ++ l') := by
  intro k t h
  have hlt : k < l.length := by
    by_contra hh
    rw [List.get?_eq_none.mpr (Nat.le_of_not_lt hh)] at h
    exact Option.noConfusion h
  exact ⟨t, by rw [List.get?_append hlt]; exact h, sameCore_refl t⟩

theorem applyPairing_preserves (toks : List Tok) (t : Tok) :
    PreservesTok toks (applyPairing toks t).2 := by
  unfold applyPairing
  split
  · cases hp : pairScan toks t with
    | some j =>
      exact preservesTok_modifyAt toks j _ fun tt =>
        ⟨rfl, rfl, rfl, rfl, rfl, rfl, rfl, rfl, rfl⟩
    | none => exact preservesTok_refl toks
  · exact preservesTok_refl toks

theorem applyChildLink_preserves (toks : List Tok) (t : Tok) (c : Nat) :
    PreservesTok toks (applyChildLink toks t c) := by
  unfold applyChildLink
  cases hc : childScan toks t with
  | some j =>
    exact preservesTok_modifyAt toks j _ fun tt =>
      ⟨rfl, rfl, rfl, rfl, rfl, rfl, rfl, rfl, rfl⟩
  | none => exact preservesTok_refl toks

theorem trackOpen_preserves (st : ParseState) (ev : TokEvent) (adj : Int)
    (ip : Bool) : PreservesTok st.toks (trackOpen st ev adj ip).toks := by
  unfold trackOpen
  exact preservesTok_trans (applyPairing_preserves st.toks _)
    (preservesTok_trans (applyChildLink_preserves _ _ _)
      (preservesTok_append _ _))

theorem parseStep_toks_eq (st : ParseState) (ev : TokEvent) :
    (parseStep st ev).toks
      = if ev.typ == .error then st.toks
        else
          (trackOpen
            (if ev.typ != .text then
              { st with tag := { name := ev.tagName, attributes := ev.attrs } }
             else st) ev
            (match ev.typ with
             | .startTag => if isVoid ev.tagName then 0 else 1
             | .endTag => -1
             | _ => 0)
            (match ev.typ with
             | .startTag => isPreformatted ev.tagName
             | _ => false)).toks := by
  unfold parseStep
  split
  · rfl
  · rfl

theorem parseStep_preserves (st : ParseState) (ev : TokEvent) :
    PreservesTok st.toks (parseStep st ev).toks := by
  rw [parseStep_toks_eq]
  split
  · exact preservesTok_refl st.toks
  · split
    · next h =>
      have := trackOpen_preserves
        { st with tag := { name := ev.tagName, attributes := ev.attrs } } ev
      exact this _ _
    · exact trackOpen_preserves st ev _ _

theorem applyPairing_length (toks : List Tok) (t : Tok) :
    (applyPairing toks t).2.length = toks.length := by
  unfold applyPairing
  split
  · cases hp : pairScan toks t with
    | some j => simp [modifyAt_length]
    | none => rfl
  · rfl

theorem applyChildLink_length (toks : List Tok) (t : Tok) (c : Nat) :
    (applyChildLink toks t c).length = toks.length := by
  unfold applyChildLink
  cases hc : childScan toks t with
  | some j => simp [modifyAt_length]
  | none => rfl

theorem trackOpen_length (st : ParseState) (ev : TokEvent) (adj : Int)
    (ip : Bool) :
    (trackOpen st ev adj ip).toks.length = st.toks.length + 1 := by
  unfold trackOpen
  simp [applyChildLink_length, applyPairing_length]

theorem parseStep_length (st : ParseState) (ev : TokEvent)
    (h : ev.typ ≠ .error) :
    (parseStep st ev).toks.length = st.toks.length + 1 := by
  rw [parseStep_toks_eq]
  split
  · next hh => exact absurd (by simpa using hh) h
  · split
    · exact trackOpen_length _ _ _ _
    · exact trackOpen_length _ _ _ _

theorem parseStep_depth (st : ParseState) (ev : TokEvent) :
    (parseStep st ev).depth = st.depth + eventAdj ev := by
  unfold parseStep trackOpen eventAdj
  cases ev.typ <;> simp

theorem applyPairing_fst_fields (toks : List Tok) (t : Tok) :
    (applyPairing toks t).1.typ = t.typ ∧ (applyPairing toks t).1.raw = t.raw
      ∧ (applyPairing toks t).1.inPre = t.inPre
      ∧ (applyPairing toks t).1.depth = t.depth
      ∧ (applyPairing toks t).1.tag = t.tag
      ∧ (applyPairing toks t).1.text = t.text
      ∧ (applyPairing toks t).1.closed = t.closed
      ∧ (applyPairing toks t).1.children = t.children
      ∧ (applyPairing toks t).1.i = t.i := by
  unfold applyPairing
  split
  · cases hp : pairScan toks t with
    | some j => simp
    | none => simp
  · simp

theorem trackOpen_get_new (st : ParseState) (ev : TokEvent) (adj : Int)
    (ip : Bool) :
    (trackOpen st ev adj ip).toks.get? st.toks.length
      = some (applyPairing st.toks (mkParseTok st ev adj ip)).1 := by
  unfold trackOpen
  have hlen : (applyChildLink (applyPairing st.toks (mkParseTok st ev adj ip)).2
      (applyPairing st.toks (mkParseTok st ev adj ip)).1 st.counter).length
      = st.toks.length := by
    rw [applyChildLink_length, applyPairing_length]
  rw [← hlen]
  exact List.get?_concat_length _ _

theorem parseStep_get_new (st : ParseState) (ev : TokEvent)
    (h : ev.typ ≠ .error) :
    ∃ t, (parseStep st ev).toks.get? st.toks.length = some t
      ∧ t.typ = ev.typ ∧ t.raw = ev.raw
      ∧ t.inPre = (ev.typ == .startTag && isPreformatted ev.tagName)
      ∧ t.depth
          = (if ev.typ = .endTag then st.depth + eventAdj ev else st.depth)
      ∧ t.text = TextInfo.zero := by
  rw [parseStep_toks_eq]
  split
  · next hh => exact absurd (by simpa using hh) h
  · have key : ∀ st' : ParseState, st'.toks = st.toks → st'.depth = st.depth →
        ∃ t, (trackOpen st' ev
            (match ev.typ with
             | .startTag => if isVoid ev.tagName then 0 else 1
             | .endTag => -1
             | _ => 0)
            (match ev.typ with
             | .startTag => isPreformatted ev.tagName
             | _ => false)).toks.get? st.toks.length = some t
          ∧ t.typ = ev.typ ∧ t.raw = ev.raw
          ∧ t.inPre = (ev.typ == .startTag && isPreformatted ev.tagName)
          ∧ t.depth
              = (if ev.typ = .endTag then st.depth + eventAdj ev else st.depth)
          ∧ t.text = TextInfo.zero := by
      intro st' htoks hdepth
      refine ⟨_, by rw [← htoks]; exact trackOpen_get_new st' ev _ _, ?_⟩
      obtain ⟨f1, f2, f3, f4, _, f6, _⟩ := applyPairing_fst_fields st'.toks
        (mkParseTok st' ev _ _)
      rw [f1, f2, f3, f4, f6]
      unfold mkParseTok eventAdj
      cases hty : ev.typ <;> simp_all [mkParseTok]
    split
    · exact key _ rfl rfl
    · exact key _ rfl rfl

theorem foldl_parseStep_depth (evs : List TokEvent) (st : ParseState) :
    (evs.foldl parseStep st).depth = st.depth + balance evs := by
  induction evs generalizing st with
  | nil => simp [balance]
  | cons e rest ih =>
    simp only [List.foldl_cons]
    rw [ih, parseStep_depth]
    simp [balance]
    ring

theorem foldl_parseStep_length (evs : List TokEvent) (st : ParseState)
    (h : ∀ e ∈ evs, e.typ ≠ .error) :
    (evs.foldl parseStep st).toks.length = st.toks.length + evs.length := by
  induction evs generalizing st with
  | nil => simp
  | cons e rest ih =>
    simp only [List.foldl_cons]
    rw [ih _ fun x hx => h x (List.mem_cons_of_mem e hx),
      parseStep_length st e (h e (List.mem_cons_self e rest))]
    simp
    omega

/-- Where each token of a parse comes from: token `k` carries the kind,
raw bytes and `inPre` flag of event `k`, a zero text info, and the depth
snapshot described by the running balance (taken after the event for an
end tag, before it otherwise). -/
theorem parse_get_core (evs : List TokEvent)
    (hne : ∀ e ∈ evs, e.typ ≠ .error) (k : Nat) (e : TokEvent)
    (he : evs.get? k = some e) :
    ∃ t, (parse evs).get? k = some t
      ∧ t.typ = e.typ ∧ t.raw = e.raw
      ∧ t.inPre = (e.typ == .startTag && isPreformatted e.tagName)
      ∧ t.depth = (if e.typ = .endTag then balance (evs.take (k + 1))
                   else balance (evs.take k))
      ∧ t.text = TextInfo.zero := by
  induction evs using List.reverseRecOn generalizing k e with
  | nil => simp at he
  | append_singleton evs ev ih =>
    have hne' : ∀ x ∈ evs, x.typ ≠ .error := fun x hx =>
      hne x (List.mem_append_left _ hx)
    have hlt : k < evs.length + 1 := by
      by_contra hh
      rw [List.get?_eq_none.mpr (by simpa using Nat.le_of_not_lt hh)] at he
      exact Option.noConfusion he
    unfold parse
    rw [List.foldl_append]
    simp only [List.foldl_cons, List.foldl_nil]
    rcases Nat.lt_or_ge k evs.length with hk | hk
    · -- an old token, preserved core-wise by the final step
      have he' : evs.get? k = some e := by
        rw [List.get?_append hk] at he
        exact he
      obtain ⟨t, ht, h1, h2, h3, h4, h5⟩ := ih hne' k e he'
      obtain ⟨t', ht', hc⟩ :=
        parseStep_preserves (evs.foldl parseStep initParseState) ev k t ht
      obtain ⟨c1, c2, c3, c4, c5, c6, c7, c8, c9⟩ := hc
      refine ⟨t', ht', c2.trans h1, c4.trans h2, c7.trans h3, ?_, c9.trans h5⟩
      rw [c8, h4]
      have ht1 : (evs ++ [ev]).take (k + 1) = evs.take (k + 1) :=
        List.take_append_of_le_length (by omega)
      have ht2 : (evs ++ [ev]).take k = evs.take k :=
        List.take_append_of_le_length (by omega)
      rw [ht1, ht2]
    · -- the token appended by the final step
      have hk' : k = evs.length := by omega
      subst hk'
      have he' : ev = e := by
        rw [List.get?_concat_length] at he
        exact Option.some.inj he
      subst he'
      have hlen : (evs.foldl parseStep initParseState).toks.length
          = evs.length := by
        rw [foldl_parseStep_length evs initParseState hne']
        simp [initParseState]
      obtain ⟨t, ht, h1, h2, h3, h4, h5⟩ :=
        parseStep_get_new (evs.foldl parseStep initParseState) ev
          (hne ev (List.mem_append_right _ (List.mem_singleton_self ev)))
      rw [hlen] at ht
      refine ⟨t, ht, h1, h2, h3, ?_, h5⟩
      rw [h4]
      have hdep : (evs.foldl parseStep initParseState).depth = balance evs := by
        rw [foldl_parseStep_depth]
        simp [initParseState]
      have htake1 : (evs ++ [ev]).take (evs.length + 1) = evs ++ [ev] := by
        apply List.take_of_length_le
        simp
      have htake2 : (evs ++ [ev]).take evs.length = evs := by
        rw [List.take_append_of_le_length (by omega)]
        exact List.take_of_length_le (by omega)
      have hbal : balance (evs ++ [ev]) = balance evs + eventAdj ev := by
        simp [balance]
      rw [hdep, htake1, htake2, hbal]

/-- C2 (code bug): on `<pre>A</pre><div><div>Hello</div><div>World</div></div>`
the layout engine emits every byte after the `<pre>` opener verbatim —
including the whole `<div>…</div>` document that follows the matching
`</pre>` — because `parse` re-declares `inPre` each iteration, so the
`</pre>` token never carries the `inPre` flag and the formatter's
verbatim state is never reset.  The same `<div>` document formatted on
its own is laid out with newlines and indentation, so normal rules do
not resume after the matching close as the claim states. -/
theorem C2_verbatim_never_resumes :
    (format defaultConfig preThenDivEvents).out
      = strBytes "<pre>A</pre><div><div>Hello</div><div>World</div></div>"
    ∧ (format defaultConfig divEvents).out
      = strBytes "<div>\n  <div>Hello</div>\n  <div>World</div>\n</div>" := by
  exact ⟨by decide, by decide⟩

/-- C3 (counterexample): the source `Hello\n` ends with exactly one
newline, but the formatted output is `Hello` — the trailing newline of a
final text token that contains non-whitespace is dropped (the engine
only emits the post-text newline when a next token exists).  And the
source `  <br>x` has zero leading newlines, yet the output `\n<br>\nx`
begins with one: zero does not stay zero when leading whitespace without
a newline precedes a block tag. -/
theorem C3_counterexample :
    (trailingNewlineMatch (strBytes "Hello\n") = true
      ∧ (format defaultConfig [evText "Hello\n"]).out = strBytes "Hello")
    ∧ (leadingNewlineMatch (strBytes "  ") = false
      ∧ (format defaultConfig [evText "  ", evStart "br", evText "x"]).out
          = strBytes "\n<br>\nx") := by
  exact ⟨⟨by decide, by decide⟩, by decide, by decide⟩

/-- C3 (amended): boundary-newline preservation holds only for the
whitespace-only text tokens at the document boundaries, and there it is
exact: the whitespace-only prologue appends to the output precisely one
copy of the configured newline when the token is first and its bytes
contain a leading newline and no newline run is pending
(`newlineDepth = 0`), then precisely one more when the token is last and
its bytes contain a trailing newline and the counter is still zero, and
nothing otherwise — so one boundary newline is preserved and runs
collapse to one.  Concretely: `\n<div>Hello</div>\n` round-trips, `\n`
and `\n\n\n` both format to `\n`, `Hello` gains no boundary newline, and
a trailing `\n\n\n\n` token after `</div>` yields exactly one trailing
newline. -/
theorem C3_amended (cfg : Config) (st : FmtState) (curr : Tok)
    (prev next : Option Tok) :
    ((stepWsText cfg st curr prev next).w.out
      = st.w.out
        ++ (if prev.isNone && leadingNewlineMatch curr.raw then
              (if st.w.newlineDepth = 0 then cfg.newline else [])
            else [])
        ++ (if next.isNone && trailingNewlineMatch curr.raw then
              (if (if prev.isNone && leadingNewlineMatch curr.raw then
                      st.w.newlineDepth + 1
                    else st.w.newlineDepth) = 0 then cfg.newline
                else [])
            else []))
    ∧ (format defaultConfig newlineBoundaryEvents).out
        = strBytes "\n<div>Hello</div>\n"
    ∧ (format defaultConfig [evText "\n"]).out = strBytes "\n"
    ∧ (format defaultConfig [evText "\n\n\n"]).out = strBytes "\n"
    ∧ (format defaultConfig [evText "Hello"]).out = strBytes "Hello"
    ∧ (format defaultConfig
          [evStart "div", evText "Hello", evEnd "div",
           evText "\n\n\n\n"]).out
        = strBytes "<div>Hello</div>\n" := by
  refine ⟨?_, by decide, by decide, by decide, by decide, by decide⟩
  unfold stepWsText wNewline
  by_cases hA : (prev.isNone && leadingNewlineMatch curr.raw) = true
  · by_cases h0 : st.w.newlineDepth = 0
    · by_cases hB : (next.isNone && trailingNewlineMatch curr.raw) = true
      · simp [hA, hB, h0]
      · simp [hA, hB, h0]
    · have h1 : st.w.newlineDepth + 1 > 1 := by omega
      have h2 : st.w.newlineDepth + 1 + 1 > 1 := by omega
      by_cases hB : (next.isNone && trailingNewlineMatch curr.raw) = true
      · simp [hA, hB, h1, h2, h0]
      · simp [hA, hB, h1, h0]
  · by_cases hB : (next.isNone && trailingNewlineMatch curr.raw) = true
    · by_cases h0 : st.w.newlineDepth = 0
      · simp [hA, hB, h0]
      · have h1 : st.w.newlineDepth + 1 > 1 := by omega
        simp [hA, hB, h1, h0]
    · simp [hA, hB]

/-- C7 (code bug): in `<div><pre><div>Text</div></pre></div>` the `<pre>`
opener is token 1 at depth 1, its matching close is token 5 (paired back
to token 1), yet the text token 3 strictly between them records depth 3:
depth keeps changing inside the verbatim region, contrary to the claim
and to the repository's own `Preformatted` parse test, because the
`inPre` flag is reset on every iteration of `parser.parse`. -/
theorem C7_depth_changes_inside_verbatim :
    ((parse preDepthEvents).get? 1).map
        (fun t => (t.tag.name, t.inPre, t.depth)) = some ("pre", true, 1)
    ∧ ((parse preDepthEvents).get? 5).map
        (fun t => (t.typ, t.tag.name, t.depth, t.startElement))
        = some (.endTag, "pre", 1, some 1)
    ∧ ((parse preDepthEvents).get? 3).map
        (fun t => (t.typ, t.depth)) = some (.text, 3) := by
  exact ⟨by decide, by decide, by decide⟩

/-- C8 (counterexample): the tree builder accepts the lone unmatched
closing tag `</div>` and records depth `-1` on its token, so depth is
not non-negative for every accepted input. -/
theorem C8_counterexample :
    ((parse [evEnd "div"]).get? 0).map Tok.depth = some (-1) := by
  decide

/-- C8 (amended): depth non-negativity does not hold for arbitrary
accepted input (an unmatched closing tag records depth `-1`, see the
counterexample); it holds whenever every prefix of the event stream has
a non-negative running balance of depth adjustments — in particular for
well-nested documents. -/
theorem C8_amended (evs : List TokEvent)
    (hne : ∀ e ∈ evs, e.typ ≠ TokTyp.error)
    (hbal : ∀ k, k ≤ evs.length → 0 ≤ balance (evs.take k)) :
    ∀ t ∈ parse evs, 0 ≤ t.depth := by
  intro t ht
  obtain ⟨k, hk⟩ := List.get?_of_mem ht
  have hklt : k < (parse evs).length := by
    by_contra hh
    rw [List.get?_eq_none.mpr (Nat.le_of_not_lt hh)] at hk
    exact Option.noConfusion hk
  have hlen : (parse evs).length = evs.length := by
    unfold parse
    rw [foldl_parseStep_length evs initParseState hne]
    simp [initParseState]
  obtain ⟨e, he⟩ : ∃ e, evs.get? k = some e := by
    cases hc : evs.get? k with
    | none =>
      rw [List.get?_eq_none] at hc
      omega
    | some e => exact ⟨e, rfl⟩
  obtain ⟨t', ht', _, _, _, hdepth, _⟩ := parse_get_core evs hne k e he
  have htt : t = t' := by
    rw [hk] at ht'
    exact Option.some.inj ht'
  subst htt
  rw [hdepth]
  split
  · exact hbal (k + 1) (by omega)
  · exact hbal k (by omega)

/-- Witness for `C8_amended` at the balanced `Basic` test input. -/
theorem C8_amended_witness :
    ((∀ e ∈ divEvents, e.typ ≠ TokTyp.error)
      ∧ ∀ k, k ≤ divEvents.length → 0 ≤ balance (divEvents.take k))
    ∧ ∀ t ∈ parse divEvents, 0 ≤ t.depth :=
  ⟨⟨by decide, by decide⟩, C8_amended divEvents (by decide) (by decide)⟩

/-- C9 (code bug): the struct literal returned by `prepareText` never
assigns `isWhitespaceOnly`, so the flag is `false` for every input — in
particular for the all-whitespace raw text `" "`, which contains no
non-space character, where the claim (and the repository's own parse
test, which expects whitespace-only text to contribute size 0) requires
`true`. -/
theorem C9_isWhitespaceOnly_never_set :
    (∀ raw tabStr, (prepareText raw tabStr).isWhitespaceOnly = false)
    ∧ (prepareText (strBytes " ") defaultConfig.tabStr).isWhitespaceOnly
        = false
    ∧ nonSpaceMatch (strBytes " ") = false := by
  exact ⟨fun _ _ => rfl, rfl, by decide⟩

theorem listAny_congr {α : Type} (l : List α) (f g : α → Bool)
    (h : ∀ a ∈ l, f a = g a) : l.any f = l.any g := by
  induction l with
  | nil => rfl
  | cons a l ih =>
    simp only [List.any_cons, h a (List.mem_cons_self a l),
      ih fun x hx => h x (List.mem_cons_of_mem a hx)]

/-- Every token a parse produces still carries the zero text info (text
preparation happens later, in `Format`). -/
theorem parse_text_zero (evs : List TokEvent)
    (hne : ∀ e ∈ evs, e.typ ≠ TokTyp.error) :
    ∀ t ∈ parse evs, t.text = TextInfo.zero := by
  intro t ht
  obtain ⟨k, hk⟩ := List.get?_of_mem ht
  have hklt : k < (parse evs).length := by
    by_contra hh
    rw [List.get?_eq_none.mpr (Nat.le_of_not_lt hh)] at hk
    exact Option.noConfusion hk
  have hlen : (parse evs).length = evs.length := by
    unfold parse
    rw [foldl_parseStep_length evs initParseState hne]
    simp [initParseState]
  obtain ⟨e, he⟩ : ∃ e, evs.get? k = some e := by
    cases hc : evs.get? k with
    | none => rw [List.get?_eq_none] at hc; omega
    | some e => exact ⟨e, rfl⟩
  obtain ⟨t', ht', _, _, _, _, hz⟩ := parse_get_core evs hne k e he
  rw [hk] at ht'
  rw [Option.some.inj ht']
  exact hz

/-- After text preparation, a non-text token still carries the zero text
info (in particular its `hasNewline` is false). -/
theorem prepared_nontext_zero (cfg : Config) (evs : List TokEvent)
    (hne : ∀ e ∈ evs, e.typ ≠ TokTyp.error) :
    ∀ t ∈ prepareTokens cfg (parse evs), t.typ ≠ TokTyp.text →
      t.text = TextInfo.zero := by
  intro t ht htyp
  unfold prepareTokens at ht
  obtain ⟨t₀, ht₀, heq⟩ := List.mem_map.mp ht
  by_cases hc : t₀.typ = TokTyp.text
  · rw [if_pos (by simp [hc])] at heq
    rw [← heq] at htyp
    simp [hc] at htyp
  · rw [if_neg (by simp [hc])] at heq
    rw [← heq]
    exact parse_text_zero evs hne t₀ ht₀

/-- The `blockCount` loop is the existence of a qualifying child. -/
theorem blockCountLoop_any (toks : List Tok) (cs : List Nat) :
    blockCountLoop toks cs 0
      = cs.any fun j =>
          ((toks.getD j default).typ == TokTyp.startTag
              && !isInline (toks.getD j default).tag.name)
            || (toks.getD j default).text.hasNewline := by
  induction cs with
  | nil => rfl
  | cons j rest ih =>
    rw [List.any_cons, ← ih]
    show (let c := toks.getD j default
          let bc := if c.typ == TokTyp.startTag && !isInline c.tag.name
            then 0 + 1 else if c.text.hasNewline then 0 + 1 else 0
          if bc > 0 then true else blockCountLoop toks rest bc) = _
    dsimp only
    by_cases h1 : ((toks.getD j default).typ == TokTyp.startTag
        && !isInline (toks.getD j default).tag.name) = true
    · rw [if_pos h1, if_pos (by omega), h1]
      simp
    · rw [if_neg h1, h1 |> (Bool.not_eq_true _).mp, Bool.false_or]
      by_cases h2 : ((toks.getD j default).text.hasNewline) = true
      · rw [if_pos h2, if_pos (by omega), h2]
        simp
      · rw [if_neg h2, h2 |> (Bool.not_eq_true _).mp, Bool.false_or,
          if_neg (by omega)]

theorem shouldAlways_eq (s : String) :
    shouldAlwaysHaveNewlineAppended s = (s == "html" || s == "body") := by
  unfold shouldAlwaysHaveNewlineAppended
  split <;> simp_all

/-- C5: over the pipeline's prepared token list, the source's
`needsNewlineAppended` computes exactly the expansion decision the claim
describes. -/
theorem C5_expansion_decision (cfg : Config) (evs : List TokEvent)
    (hne : ∀ e ∈ evs, e.typ ≠ TokTyp.error) (t : Tok)
    (ht : t ∈ prepareTokens cfg (parse evs)) (hs : t.typ = TokTyp.startTag) :
    needsNewlineAppended (prepareTokens cfg (parse evs)) t
      = specNeedsExpansion (prepareTokens cfg (parse evs)) t := by
  unfold needsNewlineAppended specNeedsExpansion
  by_cases hpre : t.inPre
  · simp [hpre]
  · simp only [hpre, if_false, Bool.false_eq_true]
    by_cases hch : t.children.isEmpty
    · have : t.children.length == 0 := by
        cases hcc : t.children
        · simp
        · rw [hcc] at hch; simp at hch
      simp [this, hch]
    · have hlen0 : (t.children.length == 0) = false := by
        cases hcc : t.children
        · rw [hcc] at hch; simp at hch
        · simp
      rw [shouldAlways_eq]
      simp only [hlen0, hch, Bool.false_eq_true, if_false]
      by_cases halw : (t.tag.name == "html" || t.tag.name == "body") = true
      · simp [halw]
      · simp only [Bool.not_eq_true] at halw
        simp only [halw, Bool.false_eq_true, if_false]
        rw [blockCountLoop_any]
        have hany :
            (t.children.any fun j =>
              (((prepareTokens cfg (parse evs)).getD j default).typ
                    == TokTyp.startTag
                  && !isInline
                    ((prepareTokens cfg (parse evs)).getD j default).tag.name)
                || ((prepareTokens cfg (parse evs)).getD j
                    default).text.hasNewline)
            = (t.children.any fun j =>
              (((prepareTokens cfg (parse evs)).getD j default).typ
                    == TokTyp.startTag
                  && !isInline
                    ((prepareTokens cfg (parse evs)).getD j default).tag.name)
                || (((prepareTokens cfg (parse evs)).getD j default).typ
                      == TokTyp.text
                    && ((prepareTokens cfg (parse evs)).getD j
                        default).text.hasNewline)) := by
          apply listAny_congr
          intro j _
          rcases hget : (prepareTokens cfg (parse evs))[j]? with _ | c'
          · rw [List.getD_eq_getElem?_getD, hget]
            decide
          · rw [List.getD_eq_getElem?_getD, hget]
            simp only [Option.getD_some]
            by_cases hct : c'.typ = TokTyp.text
            · simp [hct]
            · have hcin : c' ∈ prepareTokens cfg (parse evs) :=
                List.getElem?_mem hget
              have hz : c'.text = TextInfo.zero :=
                prepared_nontext_zero cfg evs hne c' hcin hct
              rw [hz]
              simp [hct, TextInfo.zero]
        rw [hany]

/-- Witness for `C5_expansion_decision` at the outer `<div>` of the
`Basic` test input. -/
theorem C5_expansion_witness :
    ((∀ e ∈ divEvents, e.typ ≠ TokTyp.error)
      ∧ (prepareTokens defaultConfig (parse divEvents)).getD 0 default
          ∈ prepareTokens defaultConfig (parse divEvents)
      ∧ ((prepareTokens defaultConfig (parse divEvents)).getD 0 default).typ
          = TokTyp.startTag)
    ∧ needsNewlineAppended (prepareTokens defaultConfig (parse divEvents))
        ((prepareTokens defaultConfig (parse divEvents)).getD 0 default)
      = specNeedsExpansion (prepareTokens defaultConfig (parse divEvents))
        ((prepareTokens defaultConfig (parse divEvents)).getD 0 default) :=
  ⟨⟨by decide, by decide, by decide⟩,
    C5_expansion_decision defaultConfig divEvents (by decide) _ (by decide)
      (by decide)⟩

/-- The source's pairing scan computes exactly the claim's description:
the most recently seen, still-open start tag with the same name at the
same depth.  (The source filters by kind ordinal and excludes text;
since the token list never holds error-kind tokens, the kinds that
survive both filters are exactly the start tags.) -/
theorem pairScanAux_eq_lifo (toks : List Tok) (t : Tok)
    (ht : t.typ = TokTyp.endTag)
    (hne : ∀ tt ∈ toks, tt.typ ≠ TokTyp.error) (n : Nat) :
    pairScanAux toks t n
      = ((List.range n).reverse).find? (fun j =>
          match toks.get? j with
          | some tt =>
            !tt.closed && tt.typ == TokTyp.startTag
              && tt.tag.name == t.tag.name && tt.depth == t.depth
          | none => false) := by
  induction n with
  | zero => rfl
  | succ n ih =>
    rw [List.range_succ, List.reverse_append]
    simp only [List.reverse_singleton, List.singleton_append]
    show pairScanAux toks t (n + 1) = List.find? _ (n :: (List.range n).reverse)
    unfold pairScanAux
    cases hg : toks.get? n with
    | none =>
      rw [List.find?_cons_of_neg _ (by rw [hg]; simp)]
      exact ih
    | some tt =>
      have htt : tt ∈ toks := List.get?_mem hg
      have hterr : tt.typ ≠ TokTyp.error := hne tt htt
      rw [ht]
      cases hty : tt.typ with
      | error => exact absurd hty hterr
      | text =>
        rw [List.find?_cons_of_neg _ (by rw [hg]; simp [hty])]
        simpa [hty, TokTyp.ord] using ih
      | endTag =>
        rw [List.find?_cons_of_neg _ (by rw [hg]; simp [hty])]
        simpa [hty, TokTyp.ord] using ih
      | selfClosingTag =>
        rw [List.find?_cons_of_neg _ (by rw [hg]; simp [hty])]
        simpa [hty, TokTyp.ord] using ih
      | comment =>
        rw [List.find?_cons_of_neg _ (by rw [hg]; simp [hty])]
        simpa [hty, TokTyp.ord] using ih
      | doctype =>
        rw [List.find?_cons_of_neg _ (by rw [hg]; simp [hty])]
        simpa [hty, TokTyp.ord] using ih
      | startTag =>
        by_cases hcl : tt.closed = true
        · rw [List.find?_cons_of_neg _ (by rw [hg]; simp [hcl])]
          simpa [hty, hcl, TokTyp.ord] using ih
        · have hcl' : tt.closed = false := by
            cases hcc : tt.closed
            · rfl
            · exact absurd hcc hcl
          by_cases hnm : tt.tag.name = t.tag.name
          · by_cases hdp : tt.depth = t.depth
            · rw [List.find?_cons_of_pos _
                (by rw [hg]; simp [hty, hcl', hnm, hdp])]
              simp [hty, hcl', hnm, hdp, TokTyp.ord, ht]
            · rw [List.find?_cons_of_neg _ (by rw [hg]; simp [hdp])]
              simpa [hty, hcl', hnm, hdp, TokTyp.ord] using ih
          · rw [List.find?_cons_of_neg _ (by rw [hg]; simp [hnm])]
            have hnm' : t.tag.name ≠ tt.tag.name := fun hh => hnm hh.symm
            simpa [hty, hcl', hnm', TokTyp.ord] using ih

theorem parseStep_endTag_eq (st : ParseState) (ev : TokEvent)
    (hev : ev.typ = TokTyp.endTag) :
    parseStep st ev
      = { trackOpen { st with tag := ⟨ev.tagName, ev.attrs⟩ } ev (-1) false
          with currType := TokTyp.endTag } := by
  unfold parseStep
  rw [hev]
  rfl

theorem lifoMatch_sound (toks : List Tok) (t : Tok) (j : Nat)
    (h : lifoMatch toks t = some j) :
    ∃ tt, toks.get? j = some tt ∧ tt.closed = false
      ∧ tt.typ = TokTyp.startTag ∧ tt.tag.name = t.tag.name
      ∧ tt.depth = t.depth := by
  unfold lifoMatch at h
  have hp := List.find?_some h
  cases hg : toks.get? j with
  | none => rw [hg] at hp; simp at hp
  | some tt =>
    rw [hg] at hp
    simp only [Bool.and_eq_true, Bool.not_eq_true', beq_iff_eq] at hp
    exact ⟨tt, rfl, hp.1.1.1, hp.1.1.2, hp.1.2, hp.2⟩

theorem applyPairing_closed_mono (toks : List Tok) (t : Tok) (i : Nat)
    (tt : Tok) (h : toks.get? i = some tt) (hc : tt.closed = true) :
    ∃ tt', (applyPairing toks t).2.get? i = some tt'
      ∧ tt'.closed = true := by
  unfold applyPairing
  split
  · next hcond =>
    cases hp : pairScan toks t with
    | some j =>
      dsimp only
      rw [modifyAt_get?]
      by_cases hij : i = j
      · subst hij
        rw [if_pos rfl, h]
        exact ⟨_, rfl, by
          have := (Bool.and_eq_true _ _).mp hcond
          exact this.1⟩
      · rw [if_neg hij]
        exact ⟨tt, h, hc⟩
    | none => exact ⟨tt, h, hc⟩
  · exact ⟨tt, h, hc⟩

theorem applyChildLink_all_pres (toks : List Tok) (t : Tok) (c : Nat)
    (i : Nat) (tt : Tok) (h : toks.get? i = some tt) :
    ∃ tt', (applyChildLink toks t c).get? i = some tt'
      ∧ tt'.closed = tt.closed ∧ tt'.startElement = tt.startElement
      ∧ tt'.typ = tt.typ ∧ tt'.tag = tt.tag ∧ tt'.depth = tt.depth := by
  unfold applyChildLink
  cases hs : childScan toks t with
  | some j =>
    dsimp only
    rw [modifyAt_get?]
    by_cases hij : i = j
    · subst hij
      rw [if_pos rfl, h]
      exact ⟨_, rfl, rfl, rfl, rfl, rfl, rfl⟩
    · rw [if_neg hij]
      exact ⟨tt, h, rfl, rfl, rfl, rfl, rfl⟩
  | none => exact ⟨tt, h, rfl, rfl, rfl, rfl, rfl⟩

theorem trackOpen_closed_mono (st : ParseState) (ev : TokEvent)
    (adj : Int) (ip : Bool) (i : Nat) (tt : Tok)
    (h : st.toks.get? i = some tt) (hc : tt.closed = true) :
    ∃ tt', (trackOpen st ev adj ip).toks.get? i = some tt'
      ∧ tt'.closed = true := by
  obtain ⟨t1, h1, hc1⟩ :=
    applyPairing_closed_mono st.toks (mkParseTok st ev adj ip) i tt h hc
  obtain ⟨t2, h2, hc2, _⟩ := applyChildLink_all_pres _
    (applyPairing st.toks (mkParseTok st ev adj ip)).1 st.counter i t1 h1
  have hlt : i < (applyChildLink
      (applyPairing st.toks (mkParseTok st ev adj ip)).2
      (applyPairing st.toks (mkParseTok st ev adj ip)).1 st.counter).length := by
    by_contra hh
    rw [List.get?_eq_none.mpr (Nat.le_of_not_lt hh)] at h2
    exact Option.noConfusion h2
  refine ⟨t2, ?_, hc2.trans hc1⟩
  unfold trackOpen
  rw [List.get?_append hlt]
  exact h2

theorem parseStep_closed_mono (st : ParseState) (ev : TokEvent) (i : Nat)
    (tt : Tok) (h : st.toks.get? i = some tt) (hc : tt.closed = true) :
    ∃ tt', (parseStep st ev).toks.get? i = some tt'
      ∧ tt'.closed = true := by
  rw [parseStep_toks_eq]
  split
  · exact ⟨tt, h, hc⟩
  · split
    · exact trackOpen_closed_mono _ ev _ _ i tt h hc
    · exact trackOpen_closed_mono _ ev _ _ i tt h hc

theorem applyPairing_fst_startElement (toks : List Tok) (t : Tok)
    (h : t.startElement = none) :
    (applyPairing toks t).1.startElement
      = (if (t.closed && !t.inPre) = true then pairScan toks t
         else none) := by
  unfold applyPairing
  split
  · next hcond =>
    cases hp : pairScan toks t with
    | some j => simp [hcond, hp]
    | none => simp [hcond, hp, h]
  · exact h

/-- After pairing, the chosen opener is closed in the step's output. -/
theorem applyPairing_marks_closed (toks : List Tok) (t : Tok) (j : Nat)
    (tt : Tok) (hcond : (t.closed && !t.inPre) = true)
    (hp : pairScan toks t = some j) (hg : toks.get? j = some tt) :
    (applyPairing toks t).2.get? j
      = some { tt with closed := t.closed } := by
  unfold applyPairing
  rw [if_pos hcond, hp]
  dsimp only
  rw [modifyAt_get?, if_pos rfl, hg]
  rfl

theorem pairScanAux_sound (toks : List Tok) (t : Tok) (n j : Nat)
    (h : pairScanAux toks t n = some j) :
    ∃ tt, toks.get? j = some tt ∧ tt.closed = false := by
  induction n with
  | zero => exact Option.noConfusion h
  | succ n ih =>
    unfold pairScanAux at h
    cases hg : toks.get? n with
    | none => rw [hg] at h; exact ih h
    | some tt =>
      rw [hg] at h
      dsimp only at h
      by_cases h1 : (tt.closed || t.tag.name != tt.tag.name
          || decide (t.typ.ord ≤ tt.typ.ord) || tt.typ == TokTyp.text) = true
      · rw [if_pos h1] at h
        exact ih h
      · rw [if_neg h1] at h
        have hcl : tt.closed = false := by
          cases hcc : tt.closed
          · rfl
          · rw [hcc] at h1; simp at h1
        by_cases h2 : (tt.depth == t.depth && t.tag.name == tt.tag.name) = true
        · rw [if_pos h2] at h
          have hnj : n = j := Option.some.inj h
          subst hnj
          exact ⟨tt, hg, hcl⟩
        · rw [if_neg h2] at h
          exact ih h

theorem childScanAux_sound (toks : List Tok) (t : Tok) (n j : Nat)
    (h : childScanAux toks t n = some j) :
    ∃ tt, toks.get? j = some tt ∧ tt.closed = false := by
  induction n with
  | zero => exact Option.noConfusion h
  | succ n ih =>
    unfold childScanAux at h
    cases hg : toks.get? n with
    | none => rw [hg] at h; exact ih h
    | some tt =>
      rw [hg] at h
      dsimp only at h
      by_cases h1 : tt.closed = true
      · rw [if_pos h1] at h
        exact ih h
      · rw [if_neg h1] at h
        by_cases h2 : (t.depth - tt.depth == 1) = true
        · rw [if_pos h2] at h
          have hj : n = j := Option.some.inj h
          subst hj
          exact ⟨tt, hg, by
            cases hcc : tt.closed
            · rfl
            · exact absurd hcc h1⟩
        · rw [if_neg h2] at h
          exact ih h

/-- What the step appended: the new token's back-reference is either
absent or points at a previously open token that the step marked
closed. -/
theorem parseStep_new_startElement (st : ParseState) (ev : TokEvent)
    (hne : ev.typ ≠ TokTyp.error) :
    ∃ t, (parseStep st ev).toks.get? st.toks.length = some t
      ∧ (t.startElement = none
         ∨ ∃ j tt, t.startElement = some j ∧ st.toks.get? j = some tt
             ∧ tt.closed = false
             ∧ ∃ tt2, (parseStep st ev).toks.get? j = some tt2
                 ∧ tt2.closed = true) := by
  rw [parseStep_toks_eq]
  split
  · next hh => exact absurd (by simpa using hh) hne
  · have key : ∀ st' : ParseState, st'.toks = st.toks →
        ∀ adj ip, ∃ t, (trackOpen st' ev adj ip).toks.get? st.toks.length
            = some t
          ∧ (t.startElement = none
             ∨ ∃ j tt, t.startElement = some j ∧ st.toks.get? j = some tt
                 ∧ tt.closed = false
                 ∧ ∃ tt2, (trackOpen st' ev adj ip).toks.get? j = some tt2
                     ∧ tt2.closed = true) := by
      intro st' htoks adj ip
      have hget := trackOpen_get_new st' ev adj ip
      rw [htoks] at hget
      refine ⟨_, hget, ?_⟩
      have hse := applyPairing_fst_startElement st'.toks
        (mkParseTok st' ev adj ip) rfl
      rw [htoks] at hse
      by_cases hcond : ((mkParseTok st' ev adj ip).closed
          && !(mkParseTok st' ev adj ip).inPre) = true
      · rw [if_pos hcond] at hse
        cases hp : pairScan st.toks (mkParseTok st' ev adj ip) with
        | none => exact Or.inl (by rw [hse, hp])
        | some j =>
          obtain ⟨tt, hgj, hclj⟩ :=
            pairScanAux_sound st.toks (mkParseTok st' ev adj ip) _ j hp
          refine Or.inr ⟨j, tt, by rw [hse, hp], hgj, hclj, ?_⟩
          have hmark := applyPairing_marks_closed st.toks
            (mkParseTok st' ev adj ip) j tt hcond hp hgj
          obtain ⟨tt2, hgj2, hc2, _⟩ := applyChildLink_all_pres
            (applyPairing st.toks (mkParseTok st' ev adj ip)).2
            (applyPairing st.toks (mkParseTok st' ev adj ip)).1
            st'.counter j _ hmark
          have hjlt : j < (applyChildLink
              (applyPairing st.toks (mkParseTok st' ev adj ip)).2
              (applyPairing st.toks (mkParseTok st' ev adj ip)).1
              st'.counter).length := by
            by_contra hhh
            rw [List.get?_eq_none.mpr (Nat.le_of_not_lt hhh)] at hgj2
            exact Option.noConfusion hgj2
          refine ⟨tt2, ?_, ?_⟩
          · show (trackOpen st' ev adj ip).toks.get? j = some tt2
            unfold trackOpen
            rw [htoks]
            rw [List.get?_append hjlt]
            exact hgj2
          · rw [hc2]
            have := (Bool.and_eq_true _ _).mp hcond
            exact this.1
      · rw [if_neg hcond] at hse
        exact Or.inl hse
    split
    · exact key
        { st with tag := { name := ev.tagName, attributes := ev.attrs } }
        rfl _ _
    · exact key st rfl _ _

/-- The pairing invariant over full runs: back-references are injective
and always point at closed tokens. -/
theorem parseStep_pair_inv (st : ParseState) (ev : TokEvent)
    (inv1 : ∀ i₁ i₂ k, (st.toks.get? i₁).bind Tok.startElement = some k →
      (st.toks.get? i₂).bind Tok.startElement = some k → i₁ = i₂)
    (inv2 : ∀ i k, (st.toks.get? i).bind Tok.startElement = some k →
      ∃ tt, st.toks.get? k = some tt ∧ tt.closed = true) :
    (∀ i₁ i₂ k,
        ((parseStep st ev).toks.get? i₁).bind Tok.startElement = some k →
        ((parseStep st ev).toks.get? i₂).bind Tok.startElement = some k →
        i₁ = i₂)
    ∧ (∀ i k,
        ((parseStep st ev).toks.get? i).bind Tok.startElement = some k →
        ∃ tt, (parseStep st ev).toks.get? k = some tt
          ∧ tt.closed = true) := by
  by_cases herr : ev.typ = TokTyp.error
  · have hsame : (parseStep st ev).toks = st.toks := by
      rw [parseStep_toks_eq, if_pos (by simp [herr])]
    rw [hsame]
    refine ⟨inv1, ?_⟩
    intro i k h
    exact inv2 i k h
  · -- characterize links in the new list
    have hlen : (parseStep st ev).toks.length = st.toks.length + 1 :=
      parseStep_length st ev herr
    have hold : ∀ i t', i < st.toks.length →
        (parseStep st ev).toks.get? i = some t' →
        (st.toks.get? i).bind Tok.startElement = t'.startElement := by
      intro i t' hi hg
      obtain ⟨t₀, hg₀⟩ : ∃ t₀, st.toks.get? i = some t₀ := by
        cases hc : st.toks.get? i with
        | none => rw [List.get?_eq_none] at hc; omega
        | some x => exact ⟨x, rfl⟩
      obtain ⟨t₁, hg₁, hc₁⟩ := parseStep_preserves st ev i t₀ hg₀
      rw [hg] at hg₁
      obtain rfl : t' = t₁ := Option.some.inj hg₁
      rw [hg₀]
      exact hc₁.2.2.2.2.2.1.symm
    obtain ⟨tn, hgn, hse⟩ := parseStep_new_startElement st ev herr
    have hlink : ∀ i k,
        ((parseStep st ev).toks.get? i).bind Tok.startElement = some k →
        (i < st.toks.length
            ∧ (st.toks.get? i).bind Tok.startElement = some k)
          ∨ (i = st.toks.length ∧ tn.startElement = some k) := by
      intro i k h
      rcases Nat.lt_trichotomy i st.toks.length with hi | hi | hi
      · obtain ⟨t', hg', hse'⟩ : ∃ t',
            (parseStep st ev).toks.get? i = some t'
              ∧ t'.startElement = some k := by
          cases hc : (parseStep st ev).toks.get? i with
          | none => rw [hc] at h; exact Option.noConfusion h
          | some x =>
            rw [hc] at h
            exact ⟨x, rfl, h⟩
        have hthis := hold i t' hi hg'
        rw [hse'] at hthis
        exact Or.inl ⟨hi, hthis⟩
      · subst hi
        rw [hgn] at h
        exact Or.inr ⟨rfl, h⟩
      · exfalso
        rw [List.get?_eq_none.mpr (by omega)] at h
        exact Option.noConfusion h
    constructor
    · intro i₁ i₂ k h₁ h₂
      rcases hlink i₁ k h₁ with ⟨hi₁, hl₁⟩ | ⟨hi₁, hl₁⟩ <;>
        rcases hlink i₂ k h₂ with ⟨hi₂, hl₂⟩ | ⟨hi₂, hl₂⟩
      · exact inv1 i₁ i₂ k hl₁ hl₂
      · exfalso
        rcases hse with hnone | ⟨j, tt, hj, hgj, hcl, _⟩
        · rw [hnone] at hl₂; exact Option.noConfusion hl₂
        · rw [hj] at hl₂
          have hjk : j = k := Option.some.inj hl₂
          subst hjk
          obtain ⟨tt', hgt', hct'⟩ := inv2 i₁ j hl₁
          rw [hgj] at hgt'
          rw [← Option.some.inj hgt'] at hct'
          rw [hcl] at hct'
          exact Bool.noConfusion hct'
      · exfalso
        rcases hse with hnone | ⟨j, tt, hj, hgj, hcl, _⟩
        · rw [hnone] at hl₁; exact Option.noConfusion hl₁
        · rw [hj] at hl₁
          have hjk : j = k := Option.some.inj hl₁
          subst hjk
          obtain ⟨tt', hgt', hct'⟩ := inv2 i₂ j hl₂
          rw [hgj] at hgt'
          rw [← Option.some.inj hgt'] at hct'
          rw [hcl] at hct'
          exact Bool.noConfusion hct'
      · omega
    · intro i k h
      rcases hlink i k h with ⟨_, hl⟩ | ⟨_, hl⟩
      · obtain ⟨tt, hgt, hct⟩ := inv2 i k hl
        exact parseStep_closed_mono st ev k tt hgt hct
      · rcases hse with hnone | ⟨j, tt, hj, _, _, tt2, hg2, hc2⟩
        · rw [hnone] at hl; exact Option.noConfusion hl
        · rw [hj] at hl
          have hjk : j = k := Option.some.inj hl
          subst hjk
          exact ⟨tt2, hg2, hc2⟩

theorem parse_pair_inv (evs : List TokEvent) :
    (∀ i₁ i₂ k, ((parse evs).get? i₁).bind Tok.startElement = some k →
      ((parse evs).get? i₂).bind Tok.startElement = some k → i₁ = i₂)
    ∧ (∀ i k, ((parse evs).get? i).bind Tok.startElement = some k →
      ∃ tt, (parse evs).get? k = some tt ∧ tt.closed = true) := by
  unfold parse
  have main : ∀ (l : List TokEvent) (st : ParseState),
      (∀ i₁ i₂ k, (st.toks.get? i₁).bind Tok.startElement = some k →
        (st.toks.get? i₂).bind Tok.startElement = some k → i₁ = i₂) →
      (∀ i k, (st.toks.get? i).bind Tok.startElement = some k →
        ∃ tt, st.toks.get? k = some tt ∧ tt.closed = true) →
      (∀ i₁ i₂ k,
        ((l.foldl parseStep st).toks.get? i₁).bind Tok.startElement = some k →
        ((l.foldl parseStep st).toks.get? i₂).bind Tok.startElement = some k →
        i₁ = i₂)
      ∧ (∀ i k,
        ((l.foldl parseStep st).toks.get? i).bind Tok.startElement = some k →
        ∃ tt, (l.foldl parseStep st).toks.get? k = some tt
          ∧ tt.closed = true) := by
    intro l
    induction l with
    | nil => intro st h1 h2; exact ⟨h1, h2⟩
    | cons e rest ih =>
      intro st h1 h2
      obtain ⟨h1', h2'⟩ := parseStep_pair_inv st e h1 h2
      exact ih (parseStep st e) h1' h2'
  exact main evs initParseState
    (by intro i₁ i₂ k h; simp [initParseState] at h)
    (by intro i k h; simp [initParseState] at h)

/-- C6: (step level) for every end-tag event processed outside a
verbatim region, the tree builder attaches the new token to exactly the
opener found by the claim's rule — the most recently seen, still-open
start tag with the same name at the same depth — and marks that opener
closed; (run level) no two tokens of a parse ever share a back-
reference, so a paired opener is ineligible for any further pairing. -/
theorem C6_lifo_pairing :
    (∀ (st : ParseState) (ev : TokEvent), ev.typ = TokTyp.endTag →
      (∀ tt ∈ st.toks, tt.typ ≠ TokTyp.error) →
      ∃ t, (parseStep st ev).toks.get? st.toks.length = some t
        ∧ t.startElement
            = lifoMatch st.toks
              (mkParseTok { st with tag := ⟨ev.tagName, ev.attrs⟩ } ev
                (-1) false)
        ∧ (∀ j, t.startElement = some j →
            ∃ tt, st.toks.get? j = some tt ∧ tt.closed = false
              ∧ tt.typ = TokTyp.startTag ∧ tt.tag.name = ev.tagName
              ∧ tt.depth = t.depth
              ∧ ∃ tt2, (parseStep st ev).toks.get? j = some tt2
                  ∧ tt2.closed = true))
    ∧ (∀ (evs : List TokEvent) (i₁ i₂ k : Nat), i₁ ≠ i₂ →
        ((parse evs).get? i₁).bind Tok.startElement = some k →
        ((parse evs).get? i₂).bind Tok.startElement ≠ some k) := by
  constructor
  · intro st ev hev hne
    rw [parseStep_endTag_eq st ev hev]
    have htoks : ({ st with tag := ⟨ev.tagName, ev.attrs⟩ }
        : ParseState).toks = st.toks := rfl
    have hget := trackOpen_get_new
      { st with tag := ⟨ev.tagName, ev.attrs⟩ } ev (-1) false
    rw [htoks] at hget
    refine ⟨_, hget, ?_, ?_⟩
    · -- the recorded back-reference is the scan's result, and the scan
      -- equals the claim's rule
      have hcond : ((mkParseTok { st with tag := ⟨ev.tagName, ev.attrs⟩ }
          ev (-1) false).closed
          && !(mkParseTok { st with tag := ⟨ev.tagName, ev.attrs⟩ }
          ev (-1) false).inPre) = true := by
        unfold mkParseTok
        simp [hev]
      have hse := applyPairing_fst_startElement
        ({ st with tag := ⟨ev.tagName, ev.attrs⟩ } : ParseState).toks
        (mkParseTok { st with tag := ⟨ev.tagName, ev.attrs⟩ } ev (-1) false)
        rfl
      rw [if_pos hcond] at hse
      rw [htoks] at hse
      rw [hse]
      unfold pairScan
      rw [pairScanAux_eq_lifo st.toks _ (by unfold mkParseTok; simpa using hev) hne]
      rfl
    · intro j hj
      have hcond : ((mkParseTok { st with tag := ⟨ev.tagName, ev.attrs⟩ }
          ev (-1) false).closed
          && !(mkParseTok { st with tag := ⟨ev.tagName, ev.attrs⟩ }
          ev (-1) false).inPre) = true := by
        unfold mkParseTok
        simp [hev]
      have hse := applyPairing_fst_startElement
        ({ st with tag := ⟨ev.tagName, ev.attrs⟩ } : ParseState).toks
        (mkParseTok { st with tag := ⟨ev.tagName, ev.attrs⟩ } ev (-1) false)
        rfl
      rw [if_pos hcond] at hse
      rw [htoks] at hse
      rw [hse] at hj
      unfold pairScan at hj
      rw [pairScanAux_eq_lifo st.toks _ (by unfold mkParseTok; simpa using hev) hne]
        at hj
      obtain ⟨tt, hgj, hcl, hty, hnm, hdp⟩ :=
        lifoMatch_sound st.toks _ j (by unfold lifoMatch; exact hj)
      refine ⟨tt, hgj, hcl, hty, by simpa [mkParseTok] using hnm, ?_, ?_⟩
      · -- the new token keeps the probe's depth
        obtain ⟨_, _, _, hdp', _⟩ := applyPairing_fst_fields
          ({ st with tag := ⟨ev.tagName, ev.attrs⟩ } : ParseState).toks
          (mkParseTok { st with tag := ⟨ev.tagName, ev.attrs⟩ } ev (-1)
            false)
        rw [hdp']
        exact hdp
      · -- the opener is marked closed in the output
        have hp : pairScan st.toks
            (mkParseTok { st with tag := ⟨ev.tagName, ev.attrs⟩ } ev (-1)
              false) = some j := by
          unfold pairScan
          rw [pairScanAux_eq_lifo st.toks _ (by unfold mkParseTok; simpa using hev)
            hne]
          exact hj
        have hmark := applyPairing_marks_closed st.toks
          (mkParseTok { st with tag := ⟨ev.tagName, ev.attrs⟩ } ev (-1)
            false) j tt hcond hp hgj
        obtain ⟨tt2, hgj2, hc2, _⟩ := applyChildLink_all_pres
          (applyPairing st.toks
            (mkParseTok { st with tag := ⟨ev.tagName, ev.attrs⟩ } ev (-1)
              false)).2
          (applyPairing st.toks
            (mkParseTok { st with tag := ⟨ev.tagName, ev.attrs⟩ } ev (-1)
              false)).1
          ({ st with tag := ⟨ev.tagName, ev.attrs⟩ } : ParseState).counter
          j _ (by rw [← htoks] at hmark ⊢; exact hmark)
        have hjlt : j < (applyChildLink
            (applyPairing st.toks
              (mkParseTok { st with tag := ⟨ev.tagName, ev.attrs⟩ } ev (-1)
                false)).2
            (applyPairing st.toks
              (mkParseTok { st with tag := ⟨ev.tagName, ev.attrs⟩ } ev (-1)
                false)).1
            ({ st with tag := ⟨ev.tagName, ev.attrs⟩ }
              : ParseState).counter).length := by
          by_contra hhh
          rw [List.get?_eq_none.mpr (Nat.le_of_not_lt hhh)] at hgj2
          exact Option.noConfusion hgj2
        refine ⟨tt2, ?_, ?_⟩
        · show (trackOpen { st with tag := ⟨ev.tagName, ev.attrs⟩ } ev (-1)
              false).toks.get? j = some tt2
          unfold trackOpen
          rw [List.get?_append (by rw [htoks] at hjlt ⊢; exact hjlt)]
          rw [← htoks] at hgj2
          exact hgj2
        · rw [hc2]
          unfold mkParseTok
          simp [hev]
  · intro evs i₁ i₂ k hne h₁ h₂
    exact hne ((parse_pair_inv evs).1 i₁ i₂ k h₁ h₂)

/-- Witness for `C6_lifo_pairing` on the `Basic` test parse: token 3
(the first `</div>`) is paired back to opener 1, so no other token —
in particular token 7, the outer `</div>` — can share that opener. -/
theorem C6_lifo_pairing_witness :
    ((3 : Nat) ≠ 7
      ∧ ((parse divEvents).get? 3).bind Tok.startElement = some 1)
    ∧ ((parse divEvents).get? 7).bind Tok.startElement ≠ some 1 :=
  ⟨⟨by decide, by decide⟩,
    C6_lifo_pairing.2 divEvents 3 7 1 (by decide) (by decide)⟩

/-! ### Cache lemmas (`getOrCompileRegexp` is pure memoization) -/

theorem getOrCompileRegexp_wf (c : ReCache) (p : RePattern)
    (h : wfCache c) :
    (getOrCompileRegexp c p).1 = compileRe p
      ∧ wfCache (getOrCompileRegexp c p).2 := by
  unfold getOrCompileRegexp
  cases hf : c.find? (fun e => e.1 == p) with
  | some e =>
    have hmem : e ∈ c := List.mem_of_find?_eq_some hf
    have hpe : e.1 = p := by simpa using List.find?_some hf
    exact ⟨by dsimp only; rw [h e hmem, hpe], by dsimp only; exact h⟩
  | none =>
    refine ⟨rfl, ?_⟩
    intro x hx
    rcases List.mem_append.mp hx with hx | hx
    · exact h x hx
    · rw [List.mem_singleton.mp hx]

theorem formatTextBlock_agnostic (tabStr txt : Bytes) (d : Nat)
    (c₁ c₂ : ReCache) (h₁ : wfCache c₁) (h₂ : wfCache c₂) :
    (formatTextBlock tabStr txt d c₁).1 = (formatTextBlock tabStr txt d c₂).1
      ∧ wfCache (formatTextBlock tabStr txt d c₁).2 := by
  unfold formatTextBlock
  dsimp only
  constructor
  · rw [(getOrCompileRegexp_wf c₁ _ h₁).1, (getOrCompileRegexp_wf c₂ _ h₂).1]
  · exact (getOrCompileRegexp_wf c₁ _ h₁).2

theorem dtth_agnostic (cfg : Config) (st : FmtState) (c₁ c₂ : ReCache)
    (prev : Option Tok) (curr : Tok) (next : Option Tok)
    (h₁ : wfCache c₁) (h₂ : wfCache c₂) :
    (defaultTextTokenHandler cfg st c₁ prev curr next).1
      = (defaultTextTokenHandler cfg st c₂ prev curr next).1
    ∧ wfCache (defaultTextTokenHandler cfg st c₁ prev curr next).2 := by
  unfold defaultTextTokenHandler
  dsimp only
  split <;>
  · split
    · exact ⟨rfl, h₁⟩
    · split
      · refine ⟨?_, (formatTextBlock_agnostic cfg.tabStr _ st.w.depth
          c₁ c₂ h₁ h₂).2⟩
        dsimp only
        rw [(formatTextBlock_agnostic cfg.tabStr _ st.w.depth
          c₁ c₂ h₁ h₂).1]
      · exact ⟨rfl, h₁⟩

theorem handleTextToken_agnostic (cfg : Config) (st : FmtState)
    (c₁ c₂ : ReCache) (prev : Option Tok) (curr : Tok) (next : Option Tok)
    (h₁ : wfCache c₁) (h₂ : wfCache c₂) :
    (handleTextToken cfg st c₁ prev curr next).1
      = (handleTextToken cfg st c₂ prev curr next).1
    ∧ wfCache (handleTextToken cfg st c₁ prev curr next).2 := by
  unfold handleTextToken
  split
  · exact ⟨rfl, h₁⟩
  · exact dtth_agnostic cfg st c₁ c₂ prev curr next h₁ h₂

theorem stepText_agnostic (cfg : Config) (st : FmtState) (c₁ c₂ : ReCache)
    (curr : Tok) (prev next : Option Tok)
    (h₁ : wfCache c₁) (h₂ : wfCache c₂) :
    (stepText cfg st c₁ curr prev next).1
      = (stepText cfg st c₂ curr prev next).1
    ∧ wfCache (stepText cfg st c₁ curr prev next).2 := by
  have hmid : (stepTextMid cfg (stepTextPre cfg st curr prev) c₁
        prev curr next).1
      = (stepTextMid cfg (stepTextPre cfg st curr prev) c₂
        prev curr next).1
    ∧ wfCache (stepTextMid cfg (stepTextPre cfg st curr prev) c₁
        prev curr next).2 := by
    unfold stepTextMid
    split
    · exact ⟨rfl, h₁⟩
    · exact handleTextToken_agnostic cfg _ c₁ c₂ prev curr next h₁ h₂
  obtain ⟨ha, hw⟩ := hmid
  unfold stepText
  dsimp only
  cases hh₁ : stepTextMid cfg (stepTextPre cfg st curr prev) c₁
      prev curr next with
  | mk s₁ cc₁ =>
    cases hh₂ : stepTextMid cfg (stepTextPre cfg st curr prev) c₂
        prev curr next with
    | mk s₂ cc₂ =>
      rw [hh₁, hh₂] at ha
      rw [hh₁] at hw
      dsimp only at ha hw
      subst ha
      exact ⟨rfl, hw⟩

set_option maxHeartbeats 1600000 in
theorem formatStep_agnostic (cfg : Config) (toks : List Tok) (pos : Nat)
    (st : FmtState) (c₁ c₂ : ReCache)
    (h₁ : wfCache c₁) (h₂ : wfCache c₂) :
    (formatStep cfg toks pos st c₁).1 = (formatStep cfg toks pos st c₂).1
      ∧ wfCache (formatStep cfg toks pos st c₁).2 := by
  unfold formatStep
  dsimp only
  repeat' first
    | exact ⟨rfl, h₁⟩
    | exact ⟨congrArg StepOut.ok
          (stepText_agnostic cfg _ c₁ c₂ _ _ _ h₁ h₂).1,
        (stepText_agnostic cfg _ c₁ c₂ _ _ _ h₁ h₂).2⟩
    | split

theorem formatLoopF_agnostic (cfg : Config) (toks : List Tok) :
    ∀ (fuel pos : Nat) (st : FmtState) (c₁ c₂ : ReCache),
      wfCache c₁ → wfCache c₂ →
      (formatLoopF cfg toks fuel pos st c₁).1
          = (formatLoopF cfg toks fuel pos st c₂).1
        ∧ (formatLoopF cfg toks fuel pos st c₁).2.2
          = (formatLoopF cfg toks fuel pos st c₂).2.2
        ∧ wfCache (formatLoopF cfg toks fuel pos st c₁).2.1 := by
  intro fuel
  induction fuel with
  | zero => intro pos st c₁ c₂ h₁ h₂; exact ⟨rfl, rfl, h₁⟩
  | succ fuel ih =>
    intro pos st c₁ c₂ h₁ h₂
    unfold formatLoopF
    split
    · obtain ⟨ha, hw⟩ := formatStep_agnostic cfg toks pos st c₁ c₂ h₁ h₂
      cases hs₁ : formatStep cfg toks pos st c₁ with
      | mk o₁ cc₁ =>
        cases hs₂ : formatStep cfg toks pos st c₂ with
        | mk o₂ cc₂ =>
          rw [hs₁, hs₂] at ha
          rw [hs₁] at hw
          dsimp only at ha hw
          subst ha
          cases o₁ with
          | ok st' => exact ih (pos + 1) st' cc₁ cc₂ hw (by
              obtain ⟨_, hw₂⟩ := formatStep_agnostic cfg toks pos st c₂ c₂
                h₂ h₂
              rw [hs₂] at hw₂
              exact hw₂)
          | fail st' => exact ⟨rfl, rfl, hw⟩
    · exact ⟨rfl, rfl, h₁⟩

/-- C10: `Format` is deterministic — for one configuration and event
stream, two calls write identical bytes and return equal results, on
the same or different `Formatter` values, whatever reachable entries the
shared compiled-regexp cache already holds (every reachable cache maps
each pattern to its own compilation, which `getOrCompileRegexp`
preserves), and a repeated sequential call reusing the grown cache
reproduces the first call's output exactly. -/
theorem C10_determinism (cfg : Config) (evs : List TokEvent)
    (c₁ c₂ : ReCache) (h₁ : wfCache c₁) (h₂ : wfCache c₂) :
    ((formatWithCache cfg evs c₁).out = (formatWithCache cfg evs c₂).out
      ∧ (formatWithCache cfg evs c₁).err = (formatWithCache cfg evs c₂).err)
    ∧ wfCache (formatWithCache cfg evs c₁).cache
    ∧ ((formatWithCache cfg evs
          ((formatWithCache cfg evs c₁).cache)).out
        = (formatWithCache cfg evs c₁).out
      ∧ (formatWithCache cfg evs
          ((formatWithCache cfg evs c₁).cache)).err
        = (formatWithCache cfg evs c₁).err) := by
  have key : ∀ d₁ d₂ : ReCache, wfCache d₁ → wfCache d₂ →
      ((formatWithCache cfg evs d₁).out = (formatWithCache cfg evs d₂).out
        ∧ (formatWithCache cfg evs d₁).err
          = (formatWithCache cfg evs d₂).err)
      ∧ wfCache (formatWithCache cfg evs d₁).cache := by
    intro d₁ d₂ hd₁ hd₂
    obtain ⟨ha, hb, hw⟩ := formatLoopF_agnostic cfg
      (prepareTokens cfg (parse evs))
      ((prepareTokens cfg (parse evs)).length - 0) 0
      { w := { out := [], newlineDepth := 0, depth := 0 },
        inPre := false, fmtText := none, indented := [] } d₁ d₂ hd₁ hd₂
    exact ⟨⟨by unfold formatWithCache formatLoop; dsimp only; rw [ha],
      by unfold formatWithCache formatLoop; dsimp only; rw [hb]⟩,
      by unfold formatWithCache formatLoop; dsimp only; exact hw⟩
  refine ⟨(key c₁ c₂ h₁ h₂).1, (key c₁ c₂ h₁ h₂).2, ?_⟩
  exact (key ((formatWithCache cfg evs c₁).cache) c₁
    (key c₁ c₂ h₁ h₂).2 h₁).1

/-- Witness for `C10_determinism`: the `Basic` test input formatted from
the empty cache and from a one-entry reachable cache. -/
theorem C10_determinism_witness :
    (wfCache ([] : ReCache)
      ∧ wfCache [(RePattern.newlineSpaces 0, 0)])
    ∧ ((formatWithCache defaultConfig divEvents []).out
        = (formatWithCache defaultConfig divEvents
            [(RePattern.newlineSpaces 0, 0)]).out
      ∧ (formatWithCache defaultConfig divEvents []).err
        = (formatWithCache defaultConfig divEvents
            [(RePattern.newlineSpaces 0, 0)]).err) :=
  ⟨⟨by intro e he; simp at he, by
      intro e he
      rw [List.mem_singleton.mp he]
      rfl⟩,
    (C10_determinism defaultConfig divEvents []
      [(RePattern.newlineSpaces 0, 0)]
      (by intro e he; simp at he)
      (by intro e he; rw [List.mem_singleton.mp he]; rfl)).1⟩

/-- C4: when a placeholder attribute name is configured and the token at
`pos` is a start or self-closing tag carrying that attribute, the layout
engine emits exactly one forced newline and none of the token's bytes if
the tag is void, and aborts the run with the placeholder-misuse error if
it is not. -/
theorem C4_placeholder (cfg : Config) (toks : List Tok) (pos : Nat)
    (st : FmtState) (cache : ReCache) (curr : Tok)
    (hph : cfg.newlineAttributePlaceholder ≠ "")
    (hpre : st.inPre = false)
    (hget : toks.get? pos = some curr)
    (htyp : curr.typ = .startTag ∨ curr.typ = .selfClosingTag)
    (hattr : (byKey curr.tag.attributes
        cfg.newlineAttributePlaceholder).IsZero = false) :
    (curr.isVoid = false →
      formatStep cfg toks pos st cache = (.fail st, cache)
        ∧ formatLoop cfg toks pos st cache = (st, cache, true))
    ∧ (curr.isVoid = true →
      formatStep cfg toks pos st cache
        = (.ok { st with w := wNewlineForced cfg st.w }, cache)) := by
  have hcurr : toks[pos]?.getD default = curr := by
    simp [← List.get?_eq_getElem?, hget]
  have hnt : ¬curr.typ = TokTyp.text := by
    rcases htyp with h | h <;> simp [h]
  have hph' : (cfg.newlineAttributePlaceholder != "") = true := by
    simpa using hph
  constructor
  · intro hvoid
    have hstep : formatStep cfg toks pos st cache = (.fail st, cache) := by
      simp [formatStep, hcurr, hpre, hnt, hph', hattr, hvoid]
    refine ⟨hstep, ?_⟩
    have hlt : pos < toks.length := by
      by_contra hh
      rw [List.get?_eq_none.mpr (Nat.le_of_not_lt hh)] at hget
      exact Option.noConfusion hget
    obtain ⟨k, hk⟩ : ∃ k, toks.length - pos = k + 1 :=
      ⟨toks.length - pos - 1, by omega⟩
    unfold formatLoop
    rw [hk]
    simp [formatLoopF, hlt, hstep]
  · intro hvoid
    simp [formatStep, hcurr, hpre, hnt, hph', hattr, hvoid]

/-- Witness for `C4_placeholder`: on the repository's own placeholder
test inputs, the non-void `<div newline/>` aborts the run with the error
and the void `<br newline/>` emits exactly one forced newline. -/
theorem C4_placeholder_witness :
    (placeholderCfg.newlineAttributePlaceholder ≠ ""
      ∧ ((prepareTokens placeholderCfg
          (parse placeholderBadEvents)).getD 3 default).typ
            = TokTyp.selfClosingTag)
    ∧ formatLoop placeholderCfg
        (prepareTokens placeholderCfg (parse placeholderBadEvents)) 3
        fmtState0 [] = (fmtState0, [], true)
    ∧ formatStep placeholderCfg
        (prepareTokens placeholderCfg (parse placeholderGoodEvents)) 3
        fmtState0 []
        = (.ok { fmtState0 with
                   w := wNewlineForced placeholderCfg fmtState0.w }, []) := by
  refine ⟨⟨by decide, by decide⟩, ?_, ?_⟩
  · exact ((C4_placeholder placeholderCfg _ 3 fmtState0 []
      ((prepareTokens placeholderCfg (parse placeholderBadEvents)).getD 3
        default)
      (by decide) rfl (by decide) (Or.inr (by decide)) (by decide)).1
      (by decide)).2
  · exact (C4_placeholder placeholderCfg _ 3 fmtState0 []
      ((prepareTokens placeholderCfg (parse placeholderGoodEvents)).getD 3
        default)
      (by decide) rfl (by decide) (Or.inr (by decide)) (by decide)).2
      (by decide)

end Htmlfmt
